import Mathlib

/-!
# smallsh: a line-at-a-time command interpreter

A shallow embedding of `main.c` and the properties of its tokenizer, its `$$` expander,
its built-ins, its process spawner and its background-job polling.

C strings are lists of characters, the two linked lists are explicit (the argument list as
heap cells, because the program cuts it in place; the job list, which is only appended to and
walked, as a list), loops that follow pointers take fuel, and everything the operating system
answers (the result of `fork`, of `waitpid`, of `open`, of `chdir`) is an input of the model.
-/

namespace SmallSh

/-- A NUL-terminated C string, without its terminator. -/
abbrev CStr := List Char

/-- What the process does that can be observed from outside. -/
inductive Event where
  | write (text : CStr)
  | perror (text : CStr)
  | fork
  | waitpid (pid : Int)
  | kill (pid : Int) (sig : Nat)
  | chdir (path : Option CStr)
  deriving DecidableEq, Repr

/-- How a piece of the program ends: it falls through with a value, the process exits with a
code after the given events, it dereferences an invalid pointer, or the fuel is used up. -/
inductive Run (α : Type) where
  | done (a : α)
  | exited (code : Nat) (trace : List Event)
  | segfault
  | outOfFuel
  deriving DecidableEq, Repr

/-- Sequencing: only `done` continues. -/
def Run.bind {α β : Type} : Run α → (α → Run β) → Run β
  | .done a, f => f a
  | .exited c t, _ => .exited c t
  | .segfault, _ => .segfault
  | .outOfFuel, _ => .outOfFuel

/-! ## Tokenizer: `getArgs` (main.c 35-66) -/

/-- The libc `strtok_r(s, delim, &saveptr)`: the token and the new save pointer, or NULL when
only delimiters are left. -/
def strtok_r (s delim : CStr) : Option (CStr × CStr) :=
  let s1 := s.dropWhile (fun c => delim.contains c)
  if s1 = [] then none
  else some (s1.takeWhile (fun c => !delim.contains c),
             (s1.dropWhile (fun c => !delim.contains c)).drop 1)

/-- The list `getArgs` returns: the words from head to tail, and the head's `nArgs`. -/
structure ArgList where
  words : List CStr
  nArgs : Int
  deriving DecidableEq, Repr

/-- The `while (token != NULL)` loop of `getArgs`: `list` is the chain from `command` to
`tail`, `i` the counter. -/
def getArgsLoop : Nat → CStr → List CStr → Int → Option (List CStr × Int)
  | 0, _, _, _ => none
  | fuel + 1, saveptr, list, i =>
    match strtok_r saveptr [' '] with
    | none => some (list, i)
    | some (token, saveptr') => getArgsLoop fuel saveptr' (list ++ [token]) (i + 1)

/-- The function `getArgs`: `strlen(token)` on a NULL first token faults. -/
def getArgs (fuel : Nat) (line : CStr) : Run ArgList :=
  match strtok_r line [' '] with
  | none => .segfault
  | some (token, saveptr) =>
    match getArgsLoop fuel saveptr [token] 0 with
    | none => .outOfFuel
    | some (list, i) => .done ⟨list, i + 1⟩

/-! ## Expander: `swapDelimiter` (main.c 148-179) -/

/-- The libc `strstr`: the suffix of `haystack` that starts at the first occurrence of
`needle`, or NULL. -/
def strstr : CStr → CStr → Option CStr
  | [], needle => if needle = [] then some [] else none
  | c :: cs, needle =>
    if needle.isPrefixOf (c :: cs) then some (c :: cs) else strstr cs needle

/-- The marker `char delim[] = "$$"`. -/
def delim : CStr := ['$', '$']

/-- The `while (1)` loop of `swapDelimiter` on the buffer `text`. -/
def swapLoop : Nat → CStr → CStr → Option CStr
  | 0, _, _ => none
  | fuel + 1, sPID, text =>
    match strstr text delim with
    | none => some text
    | some p =>
      let strFirst := text.take (text.length - p.length)
      let strSecond := p.drop delim.length
      swapLoop fuel sPID (strFirst ++ sPID ++ strSecond)

/-- The function `swapDelimiter`; `none` when the loop has not ended within `fuel` rounds. -/
def swapDelimiter (fuel : Nat) (sPID arg : CStr) : Option CStr :=
  swapLoop fuel sPID arg

/-! ## Wait statuses and number formatting (libc) -/

/-- The text `printf("%d", n)` produces. -/
def fmtInt (n : Int) : CStr :=
  if n < 0 then '-' :: Nat.toDigits 10 n.natAbs else Nat.toDigits 10 n.toNat

/-- The macro `WEXITSTATUS`: bits 8-15 of the wait status. -/
def WEXITSTATUS (status : Nat) : Nat := (status / 256) % 256

/-- The macro `WTERMSIG`: the low seven bits of the wait status. -/
def WTERMSIG (status : Nat) : Nat := status % 128

/-- The macro `WIFEXITED`. -/
def WIFEXITED (status : Nat) : Bool := WTERMSIG status == 0

/-- The macro `WIFSIGNALED`: the low seven bits are neither 0 (exited) nor 0x7f (stopped). -/
def WIFSIGNALED (status : Nat) : Bool := 0 < WTERMSIG status && WTERMSIG status < 127

/-- The signal number of `SIGKILL`. -/
def SIGKILL : Nat := 9

/-! ## Session state -/

/-- The interpreter's state: the job list (`processArrayHead` to `processArrayTail`, one
`processId` per node), the environment entries `eStatus`, `bgMode` and `HOME`, the working
directory, and the events so far. -/
structure Shell where
  jobs : List Int
  eStatus : CStr
  bgMode : CStr
  home : Option CStr
  cwd : CStr
  trace : List Event
  deriving DecidableEq, Repr

/-- Which `open` calls succeed, and where `chdir` leads from a working directory (`none`:
the call fails). -/
structure Files where
  openWrite : CStr → Bool
  openRead : CStr → Bool
  chdir : CStr → Option CStr → Option CStr

/-! ## Built-ins (main.c 110-142) -/

/-- The function `cd__`: with `args->next` it calls `chdir(args->next->arg)` and, when that
fails, `perror("")`; without it, `chdir(getenv("HOME"))`. -/
def cd__ (fs : Files) (sh : Shell) (args : List CStr) : Run Shell :=
  match args with
  | [] => .segfault
  | _ :: path :: _ =>
    match fs.chdir sh.cwd (some path) with
    | some dir => .done { sh with cwd := dir, trace := sh.trace ++ [.chdir (some path)] }
    | none => .done { sh with trace := sh.trace ++ [.chdir (some path), .perror []] }
  | [_] =>
    match fs.chdir sh.cwd sh.home with
    | some dir => .done { sh with cwd := dir, trace := sh.trace ++ [.chdir sh.home] }
    | none => .done { sh with trace := sh.trace ++ [.chdir sh.home] }

/-- The function `status__`: it prints the environment entry `eStatus`. -/
def status__ (sh : Shell) : Shell :=
  { sh with trace := sh.trace ++ [.write sh.eStatus] }

/-- The `while (process != NULL)` loop of `exit__`. -/
def exitLoop : List Int → List Event
  | [] => []
  | processId :: next => .kill processId SIGKILL :: exitLoop next

/-- The function `exit__` on the list that starts at `process`: it ends in
`exit(EXIT_SUCCESS)`. -/
def exit__ {α : Type} (sh : Shell) (process : List Int) : Run α :=
  .exited 0 (sh.trace ++ exitLoop process)

/-! ## The argument list on the heap -/

/-- A node of `struct argument`; `next` is a heap address or NULL. The head's `nArgs` is
carried beside the heap. -/
structure argument where
  arg : CStr
  next : Option Nat
  deriving DecidableEq, Repr

/-- The heap cells that hold `struct argument` nodes. -/
abbrev Mem := Nat → Option argument

/-- Read through a pointer; NULL or an unmapped address faults. -/
def deref (mem : Mem) : Option Nat → Run argument
  | none => .segfault
  | some a =>
    match mem a with
    | none => .segfault
    | some node => .done node

/-- The store `p->next = v`. -/
def setNext (mem : Mem) (p : Option Nat) (v : Option Nat) : Run Mem :=
  (deref mem p).bind fun node =>
    .done fun a => if some a = p then some { node with next := v } else mem a

/-- The list `getArgs` returns, laid out at the addresses 0, 1, 2, ... with the head at 0. -/
def linkedList (words : List CStr) : Mem :=
  fun a => words[a]?.map fun w => ⟨w, if a + 1 < words.length then some (a + 1) else none⟩

/-! ## Process spawner (main.c 267-402) -/

/-- The `&` scan (main.c 270-283). After `argvLL = argvLL->next` the assignment
`prev = argvLL` copies the new `argvLL`, so `prev` never lags behind. -/
def checkBackground : Nat → Mem → Option Nat → Option Nat → Int → Run (Mem × Int × Bool)
  | 0, _, _, _, _ => .outOfFuel
  | fuel + 1, mem, argvLL, prev, nArgs =>
    match argvLL with
    | none => .done (mem, nArgs, false)
    | some a =>
      (deref mem (some a)).bind fun node =>
        if node.arg = ['&'] ∧ node.next = none then
          (setNext mem prev none).bind fun mem' => .done (mem', nArgs - 1, true)
        else checkBackground fuel mem node.next node.next nArgs

/-- Where a standard stream of the child points. -/
inductive Fd where
  | terminal
  | devNull
  | file (path : CStr)
  deriving DecidableEq, Repr

/-- The child's view of the command while it wires redirection: the heap, `command->nArgs`
and the targets of descriptors 0 and 1. -/
structure Child where
  mem : Mem
  nArgs : Int
  stdin : Fd
  stdout : Fd

/-- The `if (strcmp(argvLL->arg, ">") == 0)` block (main.c 325-338). -/
def redirectOut (fs : Files) (st : Child) (argvLL prev : Option Nat) : Run Child :=
  (deref st.mem argvLL).bind fun node =>
    if node.arg = ['>'] then
      (deref st.mem node.next).bind fun target =>
        if fs.openWrite target.arg = false then
          .exited 1 [.write ("cannot open ".toList ++ target.arg ++ " for output\n".toList)]
        else
          (setNext st.mem prev none).bind fun mem' =>
            .done { st with stdout := .file target.arg, mem := mem', nArgs := st.nArgs - 2 }
    else .done st

/-- The `if (strcmp(argvLL->arg, "<") == 0)` block (main.c 339-352). -/
def redirectIn (fs : Files) (st : Child) (argvLL prev : Option Nat) : Run Child :=
  (deref st.mem argvLL).bind fun node =>
    if node.arg = ['<'] then
      (deref st.mem node.next).bind fun source =>
        if fs.openRead source.arg = false then
          .exited 1 [.write ("cannot open ".toList ++ source.arg ++ " for input\n".toList)]
        else
          (setNext st.mem prev none).bind fun mem' =>
            .done { st with stdin := .file source.arg, mem := mem', nArgs := st.nArgs - 2 }
    else .done st

/-- The redirection scan of the child (main.c 322-355). -/
def redirectLoop (fs : Files) : Nat → Child → Option Nat → Option Nat → Run Child
  | 0, _, _, _ => .outOfFuel
  | fuel + 1, st, argvLL, prev =>
    match argvLL with
    | none => .done st
    | some a =>
      (redirectOut fs st (some a) prev).bind fun st1 =>
      (redirectIn fs st1 (some a) prev).bind fun st2 =>
      (deref st2.mem (some a)).bind fun node =>
        redirectLoop fs fuel st2 node.next (some a)

/-- The copy of the first `nArgs` nodes into `argv` (main.c 359-362). -/
def argvLoop : Nat → Mem → Option Nat → Run (List CStr)
  | 0, _, _ => .done []
  | n + 1, mem, argvLL =>
    (deref mem argvLL).bind fun node =>
      (argvLoop n mem node.next).bind fun rest => .done (node.arg :: rest)

/-- How one pass through the loop body continues: back at the prompt with a new state, or,
in the child, at the call `execvp(argv[0], argv)` with descriptors 0 and 1 as given. -/
inductive Outcome where
  | prompt (sh : Shell)
  | execvp (argv : List CStr) (stdin stdout : Fd)
  deriving DecidableEq, Repr

/-- The `case 0` branch, the child (main.c 313-375), up to the call of `execvp`. A negative
length of the array `argv` is treated as a fault. -/
def child (fs : Files) (fuel : Nat) (mem : Mem) (nArgs : Int) (bgProcess : Bool) :
    Run Outcome :=
  let st : Child :=
    if bgProcess then ⟨mem, nArgs, .devNull, .devNull⟩ else ⟨mem, nArgs, .terminal, .terminal⟩
  (redirectLoop fs fuel st (some 0) none).bind fun st' =>
    if st'.nArgs < 0 then .segfault
    else (argvLoop st'.nArgs.toNat st'.mem (some 0)).bind fun argv =>
      .done (.execvp argv st'.stdin st'.stdout)

/-- The `default` branch, the parent (main.c 376-401); `waited` is what the blocking
`waitpid` returns and the status it stores. -/
def parent (sh : Shell) (bgProcess : Bool) (spawnPid : Int) (waited : Int × Nat) : Shell :=
  if !bgProcess || sh.bgMode = ['1'] then
    let sh1 := { sh with trace := sh.trace ++ [.waitpid spawnPid] }
    if waited.1 ≠ -1 then
      { sh1 with eStatus := "exit value ".toList ++ fmtInt (WEXITSTATUS waited.2) ++ ['\n'] }
    else sh1
  else
    { sh with trace := sh.trace ++
        [.write ("background pid is ".toList ++ fmtInt spawnPid ++ ['\n'])] }

/-- What `main` does with an external command (main.c 267-402); `spawnPid` is what `fork`
returns in this process. -/
def spawn (fs : Files) (fuel : Nat) (sh : Shell) (command : List CStr) (spawnPid : Int)
    (waited : Int × Nat) : Run Outcome :=
  (checkBackground fuel (linkedList command) (some 0) (some 0) command.length).bind
    fun (mem, nArgs, bgProcess) =>
      let sh1 : Shell :=
        if bgProcess ∧ sh.bgMode = ['0'] then
          { sh with jobs := sh.jobs ++ [spawnPid], trace := sh.trace ++ [.fork] }
        else { sh with trace := sh.trace ++ [.fork] }
      if spawnPid = -1 then .exited 1 (sh1.trace ++ [.perror "Hull Breach!\n".toList])
      else if spawnPid = 0 then child fs fuel mem nArgs bgProcess
      else .done (.prompt (parent sh1 bgProcess spawnPid waited))

/-- The dispatch of an expanded command (main.c 262-402). -/
def runCommand (fs : Files) (fuel : Nat) (sh : Shell) (command : List CStr) (spawnPid : Int)
    (waited : Int × Nat) : Run Outcome :=
  match command with
  | [] => .segfault
  | arg :: _ =>
    if arg = "cd".toList then (cd__ fs sh command).bind fun sh' => .done (.prompt sh')
    else if arg = "status".toList then .done (.prompt (status__ sh))
    else if arg = "exit".toList then exit__ sh sh.jobs
    else spawn fs fuel sh command spawnPid waited

/-! ## Job polling (main.c 214-230) -/

/-- The lines printed for a job whose `waitpid` returned its pid. -/
def completionReport (processId : Int) (status : Nat) : List Event :=
  .write ("background pid ".toList ++ fmtInt processId ++ " is done : ".toList) ::
    (if WIFEXITED status then
      [.write ("exit value ".toList ++ fmtInt (WEXITSTATUS status) ++ ['\n'])]
    else if WIFSIGNALED status then
      [.write ("terminated by signal ".toList ++ fmtInt (WTERMSIG status) ++ ['\n'])]
    else [])

/-- The `while (currProcess != NULL)` loop; `waitpid` is the kernel's answer to
`waitpid(pid, &status, WNOHANG)` in a kernel state: the return value, the status stored, and
the next kernel state. -/
def pollLoop {K : Type} (waitpid : K → Int → Int × Nat × K) : List Int → K → List Event →
    K × List Event
  | [], k, out => (k, out)
  | processId :: next, k, out =>
    match waitpid k processId with
    | (r, status, k') =>
      if r > 0 then pollLoop waitpid next k' (out ++ completionReport processId status)
      else pollLoop waitpid next k' out

/-- The polling pass at the top of an iteration. -/
def pollJobs {K : Type} (waitpid : K → Int → Int × Nat × K) (k : K) (sh : Shell) : K × Shell :=
  match pollLoop waitpid sh.jobs k [] with
  | (k', out) => (k', { sh with trace := sh.trace ++ out })

/-- What the kernel knows of a pid of the interpreter: a child that runs, a child that has
ended with a wait status and has not been waited for, or no child (reaped, or never one). -/
inductive ChildState where
  | running
  | zombie (status : Nat)
  | gone
  deriving DecidableEq, Repr

/-- The kernel's table of the interpreter's children. -/
abbrev ProcTable := Int → ChildState

/-- The kernel's `waitpid(pid, &status, WNOHANG)` for the pid of one child: an ended child is
reaped and its pid returned with its status, a running child gives 0, and a pid that is no
child gives -1; in the last two cases no status is stored. -/
def waitpidNoHang (k : ProcTable) (pid : Int) : Int × Nat × ProcTable :=
  match k pid with
  | .zombie status => (pid, status, fun p => if p = pid then .gone else k p)
  | .running => (0, 0, k)
  | .gone => (-1, 0, k)

/-! ## What the specification says, for comparison -/

/-- The expansion as the specification words it: scanning left to right, every
non-overlapping occurrence of the two-character marker is replaced by the pid text. -/
def expandMarkers (pid : CStr) : CStr → CStr
  | [] => []
  | [c] => [c]
  | c :: d :: rest =>
    if c = '$' ∧ d = '$' then pid ++ expandMarkers pid rest
    else c :: expandMarkers pid (d :: rest)

/-- The maximal runs of characters other than the space, in order. -/
def spaceWords (line : CStr) : List CStr :=
  (line.splitOn ' ').filter (fun w => w ≠ [])

/-- The words of an input line as the specification words them: the maximal runs of
non-whitespace characters. -/
def whitespaceWords (line : CStr) : List CStr :=
  (line.splitOnP Char.isWhitespace).filter (fun w => w ≠ [])

/-! ## Vocabulary of the statements -/

/-- The last word is the background directive. -/
def endsWithAmp (words : List CStr) : Bool := decide (words.getLast? = some ['&'])

/-- The initial `nArgs` the child sees: the `&` scan has taken one off for a trailing `&`. -/
def nArgsAfterAmp (words : List CStr) : Int :=
  if endsWithAmp words then (words.length : Int) - 1 else words.length

/-- Where the child's descriptors 0 and 1 point before the redirection scan. -/
def defaultFd (words : List CStr) : Fd :=
  if endsWithAmp words then .devNull else .terminal

/-- The words of `[< input-path] [> output-path]`, in either order. -/
def redirections (input output : Option CStr) (outFirst : Bool) : List CStr :=
  let i : List CStr := match input with
    | some p => [['<'], p]
    | none => []
  let o : List CStr := match output with
    | some p => [['>'], p]
    | none => []
  if outFirst then o ++ i else i ++ o

/-- The words of `[&]`. -/
def ampWords (amp : Bool) : List CStr := if amp then [['&']] else []

/-- The words of `command [arg...] [< input-path] [> output-path] [&]`. -/
def commandLine (cmd : CStr) (args : List CStr) (input output : Option CStr)
    (outFirst amp : Bool) : List CStr :=
  cmd :: (args ++ (redirections input output outFirst ++ ampWords amp))

/-- A word that is none of the three directives. -/
abbrev Plain (w : CStr) : Prop := w ≠ ['<'] ∧ w ≠ ['>'] ∧ w ≠ ['&']

/-- The descriptor after the scan: the file of the redirection, or the default. -/
def fdOf (path : Option CStr) (dflt : Fd) : Fd :=
  match path with
  | some p => .file p
  | none => dflt

/-- The number of words the redirections take. -/
def redirCount (input output : Option CStr) : Int :=
  (if input.isSome then 2 else 0) + (if output.isSome then 2 else 0)

/-- The diagnostic of a failed `open` for the directive `d` and the path `p`. -/
def openDiagnostic (d p : CStr) : CStr :=
  "cannot open ".toList ++ p ++
    (if d = ['>'] then " for output\n".toList else " for input\n".toList)

/-- The non-blocking checks of a pass in order: the pid asked for, what `waitpid` returned,
and the status it stored. -/
def pollResults {K : Type} (waitpid : K → Int → Int × Nat × K) : List Int → K →
    List (Int × Int × Nat)
  | [], _ => []
  | processId :: next, k =>
    (processId, (waitpid k processId).1, (waitpid k processId).2.1) ::
      pollResults waitpid next (waitpid k processId).2.2

/-- The first part of a completion line: it names the process identifier. -/
def reportHeader (pid : Int) : Event :=
  .write ("background pid ".toList ++ fmtInt pid ++ " is done : ".toList)

/-- The completion line as the specification words it: the process identifier, then the exit
code (bits 8-15 of the status) of a job that exited, or the signal number (the low seven
bits) of a job that a signal terminated. -/
def expectedReport (pid : Int) (status : Nat) : List Event :=
  reportHeader pid ::
    (if status % 128 = 0 then
      [.write ("exit value ".toList ++ Nat.toDigits 10 (status / 256 % 256) ++ ['\n'])]
    else if status % 128 < 127 then
      [.write ("terminated by signal ".toList ++ Nat.toDigits 10 (status % 128) ++ ['\n'])]
    else [])

/-- The reports a list of checks calls for: one for each check that returned a positive pid,
in the order of the checks. -/
def reportsOf (checks : List (Int × Int × Nat)) : List Event :=
  ((checks.filter fun c => 0 < c.2.1).map fun c => expectedReport c.1 c.2.2).flatten

/-! ## Auxiliary notions of the proofs -/

/-- No occurrence of the marker in `pre ++ t` starts inside `pre`. -/
def NoStart : CStr → CStr → Prop
  | [], _ => True
  | c :: pre, t => ¬ delim <+: c :: (pre ++ t) ∧ NoStart pre t

/-- The list with some links cut: node `a` points to `a + 1` unless `cut a` or it is last. -/
def cutList (words : List CStr) (cut : Nat → Bool) : Mem :=
  fun a => words[a]?.map fun w =>
    ⟨w, if a + 1 < words.length ∧ cut a = false then some (a + 1) else none⟩

/-- The `>` block on the list of words: `rest` follows the word `t`, and `atHead` says that
`t` is the first word (so that `prev` is still NULL). -/
def scanOut (fs : Files) (t : CStr) (rest : List CStr) (atHead : Bool) (s : Int × Fd × Fd) :
    Run (Int × Fd × Fd) :=
  if t = ['>'] then
    match rest.head? with
    | none => .segfault
    | some p =>
      if fs.openWrite p = false then
        .exited 1 [.write ("cannot open ".toList ++ p ++ " for output\n".toList)]
      else if atHead then .segfault
      else .done (s.1 - 2, s.2.1, .file p)
  else .done s

/-- The `<` block on the list of words. -/
def scanIn (fs : Files) (t : CStr) (rest : List CStr) (atHead : Bool) (s : Int × Fd × Fd) :
    Run (Int × Fd × Fd) :=
  if t = ['<'] then
    match rest.head? with
    | none => .segfault
    | some p =>
      if fs.openRead p = false then
        .exited 1 [.write ("cannot open ".toList ++ p ++ " for input\n".toList)]
      else if atHead then .segfault
      else .done (s.1 - 2, .file p, s.2.2)
  else .done s

/-- The redirection scan on the list of words. -/
def scan (fs : Files) : List CStr → Bool → Int × Fd × Fd → Run (Int × Fd × Fd)
  | [], _, s => .done s
  | t :: rest, atHead, s =>
    (scanOut fs t rest atHead s).bind fun s1 =>
    (scanIn fs t rest atHead s1).bind fun s2 => scan fs rest false s2

/-- The links the scan has cut when it stands at node `i`: node `a` is cut when the word
after it, before position `i`, is a redirection word. -/
def cutsBefore (words : List CStr) (i : Nat) : Nat → Bool :=
  fun a => decide (a + 1 < i ∧ (words[a + 1]? = some ['>'] ∨ words[a + 1]? = some ['<']))

/-! ## Concrete sessions -/

/-- The session state `main` sets up before its loop. -/
def freshShell : Shell :=
  ⟨[], "exit status 0\n".toList, ['0'], some "/home/user".toList, "/".toList, []⟩

/-- A file system where every `open` succeeds and only `/home/user` is a directory. -/
def everyFileOpens : Files :=
  ⟨fun _ => true, fun _ => true,
    fun _ path => if path = some "/home/user".toList then path else none⟩

/-- A kernel table where child 100 has ended with exit code 3 (wait status 768), child 200
runs, and no other pid is a child. -/
def oneEnded : ProcTable :=
  fun pid => if pid = 100 then .zombie 768 else if pid = 200 then .running else .gone

/-- A file system without the directory `/no/such/dir`. -/
def noSuchDir : Files :=
  ⟨fun path => !"/no/such/dir/".toList.isPrefixOf path, fun _ => true, fun _ _ => none⟩

/-! ## The expander -/

theorem strstr_append_of_noStart (pre t : CStr) (h : NoStart pre t) :
    strstr (pre ++ t) delim = strstr t delim := by
  induction pre with
  | nil => rfl
  | cons c pre ih =>
    obtain ⟨h1, h2⟩ := h
    have h1' : delim.isPrefixOf (c :: (pre ++ t)) = false := by
      rw [Bool.eq_false_iff, ne_eq, List.isPrefixOf_iff_prefix]
      exact h1
    show strstr (c :: (pre ++ t)) delim = _
    rw [strstr, h1']
    exact ih h2

theorem noStart_append (a b t : CStr) :
    NoStart (a ++ b) t ↔ NoStart a (b ++ t) ∧ NoStart b t := by
  induction a with
  | nil => simp [NoStart]
  | cons c a ih => simp [NoStart, ih, and_assoc]

theorem strstr_some_split (t suf : CStr) (h : strstr t delim = some suf) :
    ∃ first second, t = first ++ '$' :: '$' :: second ∧ suf = '$' :: '$' :: second ∧
      NoStart first ('$' :: '$' :: second) := by
  induction t with
  | nil => simp [strstr, delim] at h
  | cons c cs ih =>
    simp only [strstr] at h
    split at h
    · rename_i hp
      injection h with h
      subst h
      match cs, hp with
      | d :: rest, hp =>
        simp [delim, List.isPrefixOf] at hp
        obtain ⟨rfl, rfl⟩ := hp
        exact ⟨[], rest, rfl, rfl, trivial⟩
      | [], hp => simp [delim, List.isPrefixOf] at hp
    · rename_i hp
      obtain ⟨first, second, h1, h2, h3⟩ := ih h
      refine ⟨c :: first, second, by simp [h1], h2, ?_, h3⟩
      rw [← h1]
      simpa using hp

theorem strstr_none_noInfix (t : CStr) (h : strstr t delim = none) : ¬ delim <:+: t := by
  induction t with
  | nil => simp [delim]
  | cons c cs ih =>
    simp only [strstr] at h
    split at h
    · simp at h
    · rename_i hp
      intro hin
      rw [List.infix_cons_iff] at hin
      rcases hin with hin | hin
      · exact hp (by simpa using hin)
      · exact ih h hin

theorem expandMarkers_of_none (pid t : CStr) (h : strstr t delim = none) :
    expandMarkers pid t = t := by
  induction t with
  | nil => rfl
  | cons c cs ih =>
    simp only [strstr] at h
    split at h
    · simp at h
    · rename_i hp
      cases cs with
      | nil => rfl
      | cons d rest =>
        have hcd : ¬ (c = '$' ∧ d = '$') := by
          rintro ⟨rfl, rfl⟩
          exact hp (by simp [delim, List.isPrefixOf])
        rw [expandMarkers, if_neg hcd, ih h]

theorem expandMarkers_split (pid first second : CStr)
    (h : NoStart first ('$' :: '$' :: second)) :
    expandMarkers pid (first ++ '$' :: '$' :: second) =
      first ++ pid ++ expandMarkers pid second := by
  induction first with
  | nil => simp [expandMarkers]
  | cons c f ih =>
    obtain ⟨h1, h2⟩ := h
    have hne : ∃ d rest, f ++ '$' :: '$' :: second = d :: rest := by
      cases f with
      | nil => exact ⟨_, _, rfl⟩
      | cons d f => exact ⟨_, _, rfl⟩
    obtain ⟨d, rest, hdr⟩ := hne
    have hcd : ¬ (c = '$' ∧ d = '$') := by
      rintro ⟨rfl, rfl⟩
      apply h1
      rw [hdr]
      simp [delim]
    have := ih h2
    rw [hdr] at this
    simp only [List.cons_append, hdr]
    rw [expandMarkers, if_neg hcd, this]

theorem noStart_replace (a pid second : CStr) (hp : '$' ∉ pid)
    (h : NoStart a ('$' :: '$' :: second)) : NoStart (a ++ pid) second := by
  rw [noStart_append]
  constructor
  · induction a with
    | nil => trivial
    | cons c a ih =>
      obtain ⟨h1, h2⟩ := h
      refine ⟨?_, ih h2⟩
      cases a with
      | nil =>
        have hc : c ≠ '$' := by
          rintro rfl
          exact h1 (by simp [delim])
        intro hpre
        cases hq : pid ++ second with
        | nil => simp [hq, delim] at hpre
        | cons d r =>
          simp [hq, delim] at hpre
          exact hc hpre.1.symm
      | cons d a =>
        intro hpre
        apply h1
        simp [delim] at hpre ⊢
        exact hpre
  · clear h
    induction pid with
    | nil => trivial
    | cons c pid ih =>
      simp only [List.mem_cons, not_or] at hp
      refine ⟨?_, ih hp.2⟩
      intro hpre
      cases hq : pid ++ second with
      | nil => simp [hq, delim] at hpre
      | cons d r =>
        simp [hq, delim] at hpre
        exact hp.1 hpre.1

theorem swapLoop_spec (pid : CStr) (hp : '$' ∉ pid) :
    ∀ (n : Nat) (t pre : CStr), t.length ≤ n → NoStart pre t →
      ∀ fuel, n < fuel → swapLoop fuel pid (pre ++ t) = some (pre ++ expandMarkers pid t) := by
  intro n
  induction n using Nat.strong_induction_on with
  | _ n ih =>
    intro t pre hlen hns fuel hfuel
    cases fuel with
    | zero => omega
    | succ fuel =>
      rw [swapLoop, strstr_append_of_noStart pre t hns]
      cases hs : strstr t delim with
      | none => simp [expandMarkers_of_none pid t hs]
      | some suf =>
        obtain ⟨first, second, ht, hsuf, hfirst⟩ := strstr_some_split t suf hs
        subst ht hsuf
        have htake : (pre ++ (first ++ '$' :: '$' :: second)).take
            ((pre ++ (first ++ '$' :: '$' :: second)).length - ('$' :: '$' :: second).length)
            = pre ++ first := by
          have : (pre ++ (first ++ '$' :: '$' :: second)).length - ('$' :: '$' :: second).length
              = (pre ++ first).length := by simp; omega
          rw [this, ← List.append_assoc, List.take_left]
        simp only [htake]
        have hns' : NoStart (pre ++ first) ('$' :: '$' :: second) :=
          (noStart_append pre first _).2 ⟨hns, hfirst⟩
        have hlen2 : second.length < n := by simp at hlen; omega
        have := ih second.length hlen2 second (pre ++ first ++ pid) le_rfl
          (noStart_replace _ pid second hp hns') fuel (by omega)
        simp only [delim, List.length_cons, List.length_nil, List.drop_succ_cons, List.drop_zero]
        rw [this, expandMarkers_split pid first second hfirst]
        simp

/-! ## The tokenizer -/

theorem strtok_r_space_cons (c : Char) (s : CStr) (h : c = ' ') :
    strtok_r (c :: s) [' '] = strtok_r s [' '] := by
  subst h
  simp [strtok_r, List.dropWhile]

theorem strtok_r_cons_ne (c : Char) (s : CStr) (h : c ≠ ' ') :
    strtok_r (c :: s) [' '] =
      some (c :: s.takeWhile (fun x => !decide (x = ' ')),
        (s.dropWhile (fun x => !decide (x = ' '))).tail) := by
  simp [strtok_r, List.dropWhile, List.takeWhile, h]

theorem splitOnP_takeWhile (p : Char → Bool) (xs : CStr) :
    xs.splitOnP p = xs.takeWhile (fun x => !p x) ::
      (match xs.dropWhile (fun x => !p x) with
        | [] => []
        | _ :: r => r.splitOnP p) := by
  induction xs with
  | nil => simp
  | cons x xs ih =>
    rw [List.splitOnP_cons]
    by_cases hx : p x
    · simp [hx, List.takeWhile, List.dropWhile]
    · simp only [hx, Bool.false_eq_true, if_false]
      rw [ih]
      simp [List.takeWhile, List.dropWhile, hx]

theorem spaceWords_space_cons (s : CStr) : spaceWords (' ' :: s) = spaceWords s := by
  simp [spaceWords, List.splitOn, List.splitOnP_cons]

theorem spaceWords_nil : spaceWords [] = [] := by
  simp [spaceWords, List.splitOn]

theorem spaceWords_cons_ne (c : Char) (s : CStr) (h : c ≠ ' ') :
    spaceWords (c :: s) = (c :: s.takeWhile (fun x => !decide (x = ' '))) ::
      spaceWords (s.dropWhile (fun x => !decide (x = ' '))).tail := by
  have hfun : (fun x : Char => !(x == ' ')) = (fun x => !decide (x = ' ')) := by
    funext x
    by_cases hx : x = ' ' <;> simp [hx]
  unfold spaceWords List.splitOn
  rw [List.splitOnP_cons, splitOnP_takeWhile, hfun]
  have hc : (c == ' ') = false := by simpa using h
  simp only [hc, Bool.false_eq_true, if_false, List.modifyHead_cons]
  cases hd : s.dropWhile (fun x => !decide (x = ' ')) with
  | nil => simp [List.filter]
  | cons y r => simp [List.filter]

theorem strtok_r_none_iff (s : CStr) : strtok_r s [' '] = none ↔ ∀ c ∈ s, c = ' ' := by
  induction s with
  | nil => simp [strtok_r]
  | cons c s ih =>
    by_cases hc : c = ' '
    · rw [strtok_r_space_cons c s hc, ih]
      simp [hc]
    · rw [strtok_r_cons_ne c s hc]
      simp [hc]

theorem strtok_r_spec (s tok rest : CStr) (h : strtok_r s [' '] = some (tok, rest)) :
    spaceWords s = tok :: spaceWords rest ∧ rest.length < s.length := by
  induction s with
  | nil => simp [strtok_r] at h
  | cons c s ih =>
    by_cases hc : c = ' '
    · rw [strtok_r_space_cons c s hc] at h
      obtain ⟨h1, h2⟩ := ih h
      subst hc
      rw [spaceWords_space_cons]
      exact ⟨h1, by simp; omega⟩
    · rw [strtok_r_cons_ne c s hc] at h
      injection h with h
      injection h with h1 h2
      subst h1 h2
      refine ⟨spaceWords_cons_ne c s hc, ?_⟩
      have := (List.dropWhile_suffix (fun x => !decide (x = ' ')) (l := s)).length_le
      simp only [List.length_tail, List.length_cons]
      omega

theorem strtok_r_none_spaceWords (s : CStr) (h : strtok_r s [' '] = none) : spaceWords s = [] := by
  induction s with
  | nil => exact spaceWords_nil
  | cons c s ih =>
    by_cases hc : c = ' '
    · rw [strtok_r_space_cons c s hc] at h
      subst hc
      rw [spaceWords_space_cons]
      exact ih h
    · rw [strtok_r_cons_ne c s hc] at h
      simp at h

theorem getArgsLoop_spec : ∀ (n : Nat) (saveptr : CStr) (list : List CStr) (i : Int) (fuel : Nat),
    saveptr.length ≤ n → n < fuel →
    getArgsLoop fuel saveptr list i =
      some (list ++ spaceWords saveptr, i + (spaceWords saveptr).length) := by
  intro n
  induction n using Nat.strong_induction_on with
  | _ n ih =>
    intro saveptr list i fuel hlen hfuel
    cases fuel with
    | zero => omega
    | succ fuel =>
      rw [getArgsLoop]
      cases hs : strtok_r saveptr [' '] with
      | none => simp [strtok_r_none_spaceWords saveptr hs]
      | some tr =>
        obtain ⟨tok, rest⟩ := tr
        obtain ⟨h1, h2⟩ := strtok_r_spec saveptr tok rest hs
        simp only
        rw [ih rest.length (by omega) rest _ _ fuel le_rfl (by omega), h1]
        simp
        omega

theorem getArgs_spaceWords (line : CStr) (fuel : Nat) (hfuel : line.length < fuel)
    (h : ∃ c ∈ line, c ≠ ' ') :
    getArgs fuel line = .done ⟨spaceWords line, (spaceWords line).length⟩ := by
  unfold getArgs
  cases hs : strtok_r line [' '] with
  | none =>
    rw [strtok_r_none_iff] at hs
    obtain ⟨c, hc, hne⟩ := h
    exact absurd (hs c hc) hne
  | some tr =>
    obtain ⟨tok, rest⟩ := tr
    obtain ⟨h1, h2⟩ := strtok_r_spec line tok rest hs
    simp only
    rw [getArgsLoop_spec rest.length rest _ _ fuel le_rfl (by omega), h1]
    simp

theorem spaceWords_mem : ∀ (n : Nat) (line : CStr), line.length ≤ n →
    ∀ w ∈ spaceWords line, w ≠ [] ∧ ' ' ∉ w := by
  intro n
  induction n using Nat.strong_induction_on with
  | _ n ih =>
    intro line hlen w hw
    cases line with
    | nil => simp [spaceWords_nil] at hw
    | cons c s =>
      by_cases hc : c = ' '
      · subst hc
        rw [spaceWords_space_cons] at hw
        exact ih s.length (by simp at hlen; omega) s le_rfl w hw
      · rw [spaceWords_cons_ne c s hc, List.mem_cons] at hw
        rcases hw with rfl | hw
        · refine ⟨by simp, ?_⟩
          intro hmem
          rw [List.mem_cons] at hmem
          rcases hmem with h | h
          · exact hc h.symm
          · have := List.mem_takeWhile_imp h
            simp at this
        · have hl := (List.dropWhile_suffix (fun x => !decide (x = ' ')) (l := s)).length_le
          refine ih (s.dropWhile (fun x => !decide (x = ' '))).tail.length ?_ _ le_rfl w hw
          simp only [List.length_tail, List.length_cons] at hlen ⊢
          omega

/-! ## The argument list on the heap -/

@[simp]
theorem Run.done_bind {α β : Type} (a : α) (f : α → Run β) :
    (Run.done a).bind f = f a := rfl

@[simp]
theorem Run.exited_bind {α β : Type} (c : Nat) (t : List Event) (f : α → Run β) :
    (Run.exited c t).bind f = Run.exited c t := rfl

@[simp]
theorem Run.segfault_bind {α β : Type} (f : α → Run β) :
    (Run.segfault : Run α).bind f = Run.segfault := rfl

@[simp]
theorem Run.outOfFuel_bind {α β : Type} (f : α → Run β) :
    (Run.outOfFuel : Run α).bind f = Run.outOfFuel := rfl

theorem linkedList_eq_cutList (words : List CStr) :
    linkedList words = cutList words (fun _ => false) := by
  funext a
  simp [linkedList, cutList]

theorem cutList_lt (words : List CStr) (cut : Nat → Bool) (a : Nat) (h : a < words.length) :
    cutList words cut a =
      some ⟨words[a], if a + 1 < words.length ∧ cut a = false then some (a + 1) else none⟩ := by
  simp [cutList, List.getElem?_eq_getElem h]

theorem deref_cutList (words : List CStr) (cut : Nat → Bool) (a : Nat) (h : a < words.length) :
    deref (cutList words cut) (some a) =
      .done ⟨words[a], if a + 1 < words.length ∧ cut a = false then some (a + 1) else none⟩ := by
  simp [deref, cutList_lt words cut a h]

theorem setNext_cutList (words : List CStr) (cut : Nat → Bool) (a : Nat) (h : a < words.length) :
    setNext (cutList words cut) (some a) none =
      .done (cutList words (fun b => if b = a then true else cut b)) := by
  rw [setNext, deref_cutList words cut a h]
  simp only [Run.done_bind]
  congr 1
  funext b
  by_cases hb : b = a
  · subst hb
    simp [cutList_lt words _ b h]
  · have : ¬ (some b = some a) := by simpa using hb
    simp [this, hb, cutList]

theorem checkBackground_linkedList (words : List CStr) :
    ∀ (d i : Nat) (fuel : Nat) (nArgs : Int), i + d = words.length → 0 < d → d < fuel →
      checkBackground fuel (linkedList words) (some i) (some i) nArgs =
        .done (linkedList words, if endsWithAmp words then nArgs - 1 else nArgs,
          endsWithAmp words) := by
  intro d
  induction d with
  | zero => intro i fuel nArgs _ h; omega
  | succ d ih =>
    intro i fuel nArgs hi _ hfuel
    cases fuel with
    | zero => omega
    | succ fuel =>
      have hlt : i < words.length := by omega
      rw [checkBackground, linkedList_eq_cutList, deref_cutList _ _ _ hlt]
      simp only [Run.done_bind]
      have hl1 : words.length - 1 < words.length := by omega
      have hlast : words.getLast? = some words[words.length - 1] := by
        rw [List.getLast?_eq_getElem?]
        exact List.getElem?_eq_getElem hl1
      by_cases hd : d = 0
      · subst hd
        have hi' : i = words.length - 1 := by omega
        subst hi'
        have hnext : ¬ (words.length - 1 + 1 < words.length) := by omega
        by_cases hamp : words[words.length - 1] = ['&']
        · have he : endsWithAmp words = true := by simp [endsWithAmp, hlast, hamp]
          simp only [hnext, false_and, if_false, hamp, and_self, if_true, he]
          rw [setNext_cutList _ _ _ hlt]
          simp only [Run.done_bind]
          congr 2
          funext b
          by_cases hb : b = words.length - 1
          · subst hb
            simp [cutList, hnext]
          · simp [cutList, hb]
        · have he : endsWithAmp words = false := by simp [endsWithAmp, hlast, hamp]
          simp only [hnext, false_and, if_false, hamp, he]
          cases fuel with
          | zero => omega
          | succ fuel => simp [checkBackground]
      · have hnext : words.length - 1 + 1 = words.length := by omega
        have hn : i + 1 < words.length := by omega
        simp only [hn, true_and, and_true, if_true]
        rw [if_neg (by simp)]
        have := ih (i + 1) fuel nArgs (by omega) (by omega) (by omega)
        rw [linkedList_eq_cutList] at this
        exact this

theorem cutsBefore_self (words : List CStr) (i : Nat) : cutsBefore words i i = false := by
  simp [cutsBefore]

theorem cutsBefore_succ_self (words : List CStr) (i : Nat) :
    cutsBefore words (i + 1) i = false := by
  simp [cutsBefore]

theorem cutsBefore_succ_of_dir (words : List CStr) (i : Nat) (hi : 0 < i)
    (h : words[i]? = some ['>'] ∨ words[i]? = some ['<']) :
    (fun b => if b = i - 1 then true else cutsBefore words i b) = cutsBefore words (i + 1) := by
  funext b
  by_cases hb : b = i - 1
  · subst hb
    have : i - 1 + 1 = i := by omega
    simp [cutsBefore, this, h]
  · simp only [hb, if_false, cutsBefore]
    congr 1
    apply propext
    constructor
    · rintro ⟨h1, h2⟩
      exact ⟨by omega, h2⟩
    · rintro ⟨h1, h2⟩
      exact ⟨by omega, h2⟩

theorem cutsBefore_succ_of_not_dir (words : List CStr) (i : Nat)
    (h : ¬ (words[i]? = some ['>'] ∨ words[i]? = some ['<'])) :
    cutsBefore words (i + 1) = cutsBefore words i := by
  funext b
  simp only [cutsBefore]
  congr 1
  apply propext
  constructor
  · rintro ⟨h1, h2⟩
    refine ⟨?_, h2⟩
    by_contra hlt
    have : b + 1 = i := by omega
    rw [this] at h2
    exact h h2
  · rintro ⟨h1, h2⟩
    exact ⟨by omega, h2⟩

theorem deref_next_cutList (words : List CStr) (cut : Nat → Bool) (i : Nat) :
    deref (cutList words cut) (if i + 1 < words.length then some (i + 1) else none) =
      match words[i + 1]? with
      | none => Run.segfault
      | some p => Run.done ⟨p, if i + 1 + 1 < words.length ∧ cut (i + 1) = false
          then some (i + 1 + 1) else none⟩ := by
  by_cases h : i + 1 < words.length
  · rw [if_pos h, deref_cutList _ _ _ h, List.getElem?_eq_getElem h]
  · rw [if_neg h, List.getElem?_eq_none (by omega)]
    rfl

theorem redirectOut_cutList (fs : Files) (words : List CStr) (cut : Nat → Bool) (i : Nat)
    (hlt : i < words.length) (hcut : cut i = false) (nA : Int) (si so : Fd)
    (prev : Option Nat) :
    redirectOut fs ⟨cutList words cut, nA, si, so⟩ (some i) prev =
      if words[i] = ['>'] then
        match words[i + 1]? with
        | none => Run.segfault
        | some p =>
          if fs.openWrite p = false then
            Run.exited 1 [.write ("cannot open ".toList ++ p ++ " for output\n".toList)]
          else (setNext (cutList words cut) prev none).bind fun mem' =>
            Run.done ⟨mem', nA - 2, si, .file p⟩
      else Run.done ⟨cutList words cut, nA, si, so⟩ := by
  rw [redirectOut, deref_cutList _ _ _ hlt]
  simp only [Run.done_bind, hcut, and_true]
  by_cases h : words[i] = ['>']
  · rw [if_pos h, if_pos h, deref_next_cutList]
    cases words[i + 1]? with
    | none => rfl
    | some p => rfl
  · rw [if_neg h, if_neg h]

theorem redirectIn_cutList (fs : Files) (words : List CStr) (cut : Nat → Bool) (i : Nat)
    (hlt : i < words.length) (hcut : cut i = false) (nA : Int) (si so : Fd)
    (prev : Option Nat) :
    redirectIn fs ⟨cutList words cut, nA, si, so⟩ (some i) prev =
      if words[i] = ['<'] then
        match words[i + 1]? with
        | none => Run.segfault
        | some p =>
          if fs.openRead p = false then
            Run.exited 1 [.write ("cannot open ".toList ++ p ++ " for input\n".toList)]
          else (setNext (cutList words cut) prev none).bind fun mem' =>
            Run.done ⟨mem', nA - 2, .file p, so⟩
      else Run.done ⟨cutList words cut, nA, si, so⟩ := by
  rw [redirectIn, deref_cutList _ _ _ hlt]
  simp only [Run.done_bind, hcut, and_true]
  by_cases h : words[i] = ['<']
  · rw [if_pos h, if_pos h, deref_next_cutList]
    cases words[i + 1]? with
    | none => rfl
    | some p => rfl
  · rw [if_neg h, if_neg h]

theorem setNext_prev_cutList (words : List CStr) (i : Nat) (hlt : i < words.length)
    (h : words[i]? = some ['>'] ∨ words[i]? = some ['<']) :
    setNext (cutList words (cutsBefore words i)) (if i = 0 then none else some (i - 1)) none =
      if i = 0 then Run.segfault else Run.done (cutList words (cutsBefore words (i + 1))) := by
  by_cases hi : i = 0
  · simp [hi, setNext, deref]
  · rw [if_neg hi, if_neg hi, setNext_cutList _ _ _ (by omega),
      cutsBefore_succ_of_dir words i (by omega) h]

theorem redirectLoop_cutList (fs : Files) (words : List CStr) :
    ∀ (d i fuel : Nat) (nA : Int) (si so : Fd), i + d = words.length → d < fuel →
      redirectLoop fs fuel ⟨cutList words (cutsBefore words i), nA, si, so⟩
          (if d = 0 then none else some i) (if i = 0 then none else some (i - 1)) =
        (scan fs (words.drop i) (decide (i = 0)) (nA, si, so)).bind fun s =>
          Run.done ⟨cutList words (cutsBefore words words.length), s.1, s.2.1, s.2.2⟩ := by
  intro d
  induction d with
  | zero =>
    intro i fuel nA si so hi hfuel
    cases fuel with
    | zero => omega
    | succ fuel =>
      have : i = words.length := by omega
      subst this
      simp [redirectLoop, scan]
  | succ d ih =>
    intro i fuel nA si so hi hfuel
    cases fuel with
    | zero => omega
    | succ fuel =>
      have hlt : i < words.length := by omega
      have hget : words[i]? = some words[i] := List.getElem?_eq_getElem hlt
      have hnext : (if i + 1 < words.length ∧ cutsBefore words (i + 1) i = false
          then some (i + 1) else none) = (if d = 0 then none else some (i + 1)) := by
        rw [cutsBefore_succ_self]
        by_cases hd : d = 0
        · have : ¬ (i + 1 < words.length) := by omega
          simp [hd, this]
        · have : i + 1 < words.length := by omega
          simp [hd, this]
      have hprev : some i = (if i + 1 = 0 then none else some (i + 1 - 1)) := by simp
      have hhead : (List.drop (i + 1) words).head? = words[i + 1]? := by
        rw [List.head?_drop]
      have IH := fun nA si so => ih (i + 1) fuel nA si so (by omega) (by omega)
      have hdec : decide (i + 1 = 0) = false := by simp
      rw [hdec] at IH
      rw [if_neg (by omega), redirectLoop, List.drop_eq_getElem_cons hlt, scan]
      simp only [scanOut, scanIn, hhead]
      rw [redirectOut_cutList fs words _ i hlt (cutsBefore_self words i)]
      by_cases hA : words[i] = ['>']
      · have hdir : words[i]? = some ['>'] ∨ words[i]? = some ['<'] := by
          left; rw [hget, hA]
        have hB : ¬ (words[i] = ['<']) := by rw [hA]; decide
        rw [if_pos hA, if_pos hA]
        cases hp : words[i + 1]? with
        | none => rfl
        | some p =>
          simp only
          by_cases ho : fs.openWrite p = false
          · rw [if_pos ho, if_pos ho]
            rfl
          · rw [if_neg ho, if_neg ho, setNext_prev_cutList words i hlt hdir]
            by_cases hi0 : i = 0
            · simp [hi0]
            · have hd0 : decide (i = 0) = false := by simp [hi0]
              rw [if_neg hi0, hd0]
              simp only [Run.done_bind, Bool.false_eq_true, if_false]
              rw [redirectIn_cutList fs words _ i hlt (cutsBefore_succ_self words i),
                if_neg hB, if_neg hB]
              simp only [Run.done_bind]
              rw [deref_cutList _ _ _ hlt]
              simp only [Run.done_bind]
              rw [hnext, hprev]
              exact IH _ _ _
      · rw [if_neg hA, if_neg hA]
        simp only [Run.done_bind]
        rw [redirectIn_cutList fs words _ i hlt (cutsBefore_self words i)]
        by_cases hB : words[i] = ['<']
        · have hdir : words[i]? = some ['>'] ∨ words[i]? = some ['<'] := by
            right; rw [hget, hB]
          rw [if_pos hB, if_pos hB]
          cases hp : words[i + 1]? with
          | none => rfl
          | some p =>
            simp only
            by_cases ho : fs.openRead p = false
            · rw [if_pos ho, if_pos ho]
              rfl
            · rw [if_neg ho, if_neg ho, setNext_prev_cutList words i hlt hdir]
              by_cases hi0 : i = 0
              · simp [hi0]
              · have hd0 : decide (i = 0) = false := by simp [hi0]
                rw [if_neg hi0, hd0]
                simp only [Run.done_bind, Bool.false_eq_true, if_false]
                rw [deref_cutList _ _ _ hlt]
                simp only [Run.done_bind]
                rw [hnext, hprev]
                exact IH _ _ _
        · have hdir : ¬ (words[i]? = some ['>'] ∨ words[i]? = some ['<']) := by
            rw [hget]
            simp [hA, hB]
          rw [if_neg hB, if_neg hB]
          simp only [Run.done_bind]
          rw [← cutsBefore_succ_of_not_dir words i hdir, deref_cutList _ _ _ hlt]
          simp only [Run.done_bind]
          rw [hnext, hprev]
          exact IH _ _ _

theorem argvLoop_cutList (words : List CStr) (cut : Nat → Bool) :
    ∀ (m i : Nat) (p : Option Nat), (0 < m → p = some i) → i + m ≤ words.length →
      (∀ a, i ≤ a → a + 1 < i + m → cut a = false) →
      argvLoop m (cutList words cut) p = Run.done ((words.drop i).take m) := by
  intro m
  induction m with
  | zero => intro i p _ _ _; simp [argvLoop]
  | succ m ih =>
    intro i p hp hle hcut
    have hlt : i < words.length := by omega
    rw [hp (by omega), argvLoop, deref_cutList _ _ _ hlt]
    simp only [Run.done_bind]
    rw [ih (i + 1) _ (fun hm => by
        have h1 : i + 1 < words.length := by omega
        have h2 : cut i = false := hcut i le_rfl (by omega)
        simp [h1, h2]) (by omega) (fun a h1 h2 => hcut a (by omega) (by omega))]
    simp only [Run.done_bind]
    rw [List.drop_eq_getElem_cons hlt, List.take_succ_cons]

theorem spawn_child_eq (fs : Files) (fuel : Nat) (sh : Shell) (words : List CStr)
    (waited : Int × Nat) (hne : words ≠ []) (hfuel : words.length < fuel) :
    spawn fs fuel sh words 0 waited =
      (scan fs words true (nArgsAfterAmp words, defaultFd words, defaultFd words)).bind fun s =>
        if s.1 < 0 then Run.segfault
        else (argvLoop s.1.toNat (cutList words (cutsBefore words words.length)) (some 0)).bind
          fun argv => Run.done (.execvp argv s.2.1 s.2.2) := by
  have hpos : 0 < words.length := List.length_pos.mpr hne
  rw [spawn, checkBackground_linkedList words words.length 0 fuel _ (by omega) hpos hfuel]
  simp only [Run.done_bind]
  rw [if_neg (by decide), if_pos trivial, child]
  have hmem : linkedList words = cutList words (cutsBefore words 0) := by
    rw [linkedList_eq_cutList]
    have hc : (fun _ : Nat => false) = cutsBefore words 0 := by
      funext a
      simp [cutsBefore]
    rw [hc]
  have key := fun nA si so =>
    redirectLoop_cutList fs words words.length 0 fuel nA si so (by omega) hfuel
  rw [if_neg (by omega), if_pos rfl] at key
  simp only [List.drop_zero, decide_True] at key
  rw [hmem]
  by_cases hamp : endsWithAmp words = true
  · simp only [hamp, if_true, nArgsAfterAmp, defaultFd]
    rw [key]
    cases scan fs words true ((words.length : Int) - 1, Fd.devNull, Fd.devNull) with
    | done s => rfl
    | exited c t => rfl
    | segfault => rfl
    | outOfFuel => rfl
  · simp only [hamp, if_false, nArgsAfterAmp, defaultFd, Bool.false_eq_true]
    rw [key]
    cases scan fs words true ((words.length : Int), Fd.terminal, Fd.terminal) with
    | done s => rfl
    | exited c t => rfl
    | segfault => rfl
    | outOfFuel => rfl

theorem scan_skip (fs : Files) (rest : List CStr) :
    ∀ (pre : List CStr) (a : CStr) (atHead : Bool) (s : Int × Fd × Fd),
      (a ≠ ['<'] ∧ a ≠ ['>']) → (∀ b ∈ pre, b ≠ ['<'] ∧ b ≠ ['>']) →
      scan fs (a :: (pre ++ rest)) atHead s = scan fs rest false s := by
  intro pre
  induction pre with
  | nil =>
    intro a atHead s ha _
    simp [scan, scanOut, scanIn, ha.1, ha.2]
  | cons b pre ih =>
    intro a atHead s ha hpre
    rw [scan]
    simp only [scanOut, scanIn, ha.1, ha.2, if_false, Run.done_bind]
    exact ih b false s (hpre b (List.mem_cons_self _ _))
      (fun c hc => hpre c (List.mem_cons_of_mem _ hc))

theorem scan_tail_ok (fs : Files) (input output : Option CStr) (outFirst amp : Bool)
    (s : Int × Fd × Fd)
    (hin : ∀ p, input = some p → Plain p) (hout : ∀ p, output = some p → Plain p)
    (hr : ∀ p, input = some p → fs.openRead p = true)
    (hw : ∀ p, output = some p → fs.openWrite p = true) :
    scan fs (redirections input output outFirst ++ ampWords amp) false s =
      Run.done (s.1 - redirCount input output, fdOf input s.2.1, fdOf output s.2.2) := by
  obtain ⟨n, si, so⟩ := s
  cases input with
  | none =>
    cases output with
    | none =>
      cases outFirst <;> cases amp <;>
        simp [redirections, ampWords, scan, scanOut, scanIn, redirCount, fdOf]
    | some o =>
      obtain ⟨o1, o2, _⟩ := hout o rfl
      have := hw o rfl
      cases outFirst <;> cases amp <;>
        simp [redirections, ampWords, scan, scanOut, scanIn, redirCount, fdOf, *]
  | some i =>
    obtain ⟨i1, i2, _⟩ := hin i rfl
    have := hr i rfl
    cases output with
    | none =>
      cases outFirst <;> cases amp <;>
        simp [redirections, ampWords, scan, scanOut, scanIn, redirCount, fdOf, *]
    | some o =>
      obtain ⟨o1, o2, _⟩ := hout o rfl
      have := hw o rfl
      cases outFirst <;> cases amp <;>
        simp [redirections, ampWords, scan, scanOut, scanIn, redirCount, fdOf, *] <;> ring

theorem scan_tail_fail (fs : Files) (input output : Option CStr) (outFirst amp : Bool)
    (s : Int × Fd × Fd)
    (hin : ∀ p, input = some p → Plain p) (hout : ∀ p, output = some p → Plain p)
    (hfail : ¬ ((∀ p, input = some p → fs.openRead p = true) ∧
      (∀ p, output = some p → fs.openWrite p = true))) :
    ∃ t, scan fs (redirections input output outFirst ++ ampWords amp) false s =
      Run.exited 1 t := by
  obtain ⟨n, si, so⟩ := s
  cases input with
  | none =>
    cases output with
    | none => simp at hfail
    | some o =>
      obtain ⟨o1, o2, _⟩ := hout o rfl
      have ho : fs.openWrite o = false := by simpa using hfail
      cases outFirst <;> cases amp <;>
        simp [redirections, ampWords, scan, scanOut, scanIn, *]
  | some i =>
    obtain ⟨i1, i2, _⟩ := hin i rfl
    cases output with
    | none =>
      have hi : fs.openRead i = false := by simpa using hfail
      cases outFirst <;> cases amp <;>
        simp [redirections, ampWords, scan, scanOut, scanIn, *]
    | some o =>
      obtain ⟨o1, o2, _⟩ := hout o rfl
      cases hi : fs.openRead i <;> cases ho : fs.openWrite o <;>
        first
        | (exfalso; apply hfail; simp [hi, ho]; done)
        | (cases outFirst <;> cases amp <;>
            simp [redirections, ampWords, scan, scanOut, scanIn, *])

/-! ## The argument vector of a well-formed command line -/

theorem redirections_length (input output : Option CStr) (outFirst : Bool) :
    ((redirections input output outFirst).length : Int) = redirCount input output := by
  cases input <;> cases output <;> cases outFirst <;> simp [redirections, redirCount]

theorem redirections_no_amp (input output : Option CStr) (outFirst : Bool)
    (hin : ∀ p, input = some p → Plain p) (hout : ∀ p, output = some p → Plain p) :
    ['&'] ∉ redirections input output outFirst := by
  have e1 : (['&'] : CStr) ≠ ['<'] := by decide
  have e2 : (['&'] : CStr) ≠ ['>'] := by decide
  cases input with
  | none =>
    cases output with
    | none => cases outFirst <;> simp [redirections]
    | some o =>
      have := (hout o rfl).2.2
      cases outFirst <;> simp [redirections, e2, Ne.symm this]
  | some i =>
    have hi := (hin i rfl).2.2
    cases output with
    | none => cases outFirst <;> simp [redirections, e1, Ne.symm hi]
    | some o =>
      have := (hout o rfl).2.2
      cases outFirst <;> simp [redirections, e1, e2, Ne.symm this, Ne.symm hi]

theorem endsWithAmp_commandLine (cmd : CStr) (args : List CStr) (input output : Option CStr)
    (outFirst amp : Bool) (hcmd : Plain cmd) (hargs : ∀ a ∈ args, Plain a)
    (hin : ∀ p, input = some p → Plain p) (hout : ∀ p, output = some p → Plain p) :
    endsWithAmp (commandLine cmd args input output outFirst amp) = amp := by
  cases amp with
  | true =>
    have : commandLine cmd args input output outFirst true =
        (cmd :: (args ++ redirections input output outFirst)) ++ [['&']] := by
      simp [commandLine, ampWords]
    rw [endsWithAmp, this, List.getLast?_concat]
    simp
  | false =>
    have hnot : ['&'] ∉ commandLine cmd args input output outFirst false := by
      simp only [commandLine, ampWords, Bool.false_eq_true, if_false, List.append_nil,
        List.mem_cons, List.mem_append, not_or]
      refine ⟨fun h => hcmd.2.2 h.symm, fun h => (hargs _ h).2.2 rfl,
        redirections_no_amp input output outFirst hin hout⟩
    rw [endsWithAmp]
    simp only [decide_eq_false_iff_not]
    intro h
    exact hnot (List.mem_of_getLast?_eq_some h)

theorem cutsBefore_commandLine (cmd : CStr) (args : List CStr) (tail : List CStr) (n a : Nat)
    (hargs : ∀ b ∈ args, Plain b) (ha : a + 1 < 0 + (args.length + 1)) :
    cutsBefore (cmd :: (args ++ tail)) n a = false := by
  have hlt : a < args.length := by omega
  have hget : (cmd :: (args ++ tail))[a + 1]? = some args[a] := by
    rw [List.getElem?_cons_succ, List.getElem?_append_left hlt, List.getElem?_eq_getElem hlt]
  have hp := hargs args[a] (List.getElem_mem _)
  simp only [cutsBefore, hget, Option.some.injEq, decide_eq_false_iff_not, not_and, not_or]
  exact fun _ => ⟨hp.2.1, hp.1⟩

theorem spawn_commandLine_scan (fs : Files) (fuel : Nat) (sh : Shell) (cmd : CStr)
    (args : List CStr) (input output : Option CStr) (outFirst amp : Bool) (waited : Int × Nat)
    (hfuel : (commandLine cmd args input output outFirst amp).length < fuel)
    (hcmd : Plain cmd) (hargs : ∀ a ∈ args, Plain a)
    (hin : ∀ p, input = some p → Plain p) (hout : ∀ p, output = some p → Plain p) :
    spawn fs fuel sh (commandLine cmd args input output outFirst amp) 0 waited =
      (scan fs (redirections input output outFirst ++ ampWords amp) false
        ((args.length : Int) + 1 + redirCount input output,
          if amp then Fd.devNull else Fd.terminal,
          if amp then Fd.devNull else Fd.terminal)).bind fun s =>
        if s.1 < 0 then Run.segfault
        else (argvLoop s.1.toNat
            (cutList (commandLine cmd args input output outFirst amp)
              (cutsBefore (commandLine cmd args input output outFirst amp)
                (commandLine cmd args input output outFirst amp).length)) (some 0)).bind
          fun argv => Run.done (.execvp argv s.2.1 s.2.2) := by
  rw [spawn_child_eq fs fuel sh _ waited (by simp [commandLine]) hfuel]
  have hamp := endsWithAmp_commandLine cmd args input output outFirst amp hcmd hargs hin hout
  have hn : nArgsAfterAmp (commandLine cmd args input output outFirst amp) =
      (args.length : Int) + 1 + redirCount input output := by
    rw [nArgsAfterAmp, hamp, ← redirections_length input output outFirst]
    cases amp <;> simp [commandLine, ampWords] <;> ring
  have hfd : defaultFd (commandLine cmd args input output outFirst amp) =
      if amp then Fd.devNull else Fd.terminal := by
    rw [defaultFd, hamp]
  rw [hn, hfd]
  congr 1
  exact scan_skip fs _ args cmd true _ ⟨hcmd.1, hcmd.2.1⟩
    (fun b hb => ⟨(hargs b hb).1, (hargs b hb).2.1⟩)

/-- Claim C3, amended: for a command line `command [arg...] [< input-path] [> output-path] [&]`
(redirections in either order) whose command, arguments and redirection paths are none of
`<`, `>`, `&`, the child calls `execvp` with exactly `[command, arg...]` whenever the
redirection targets open, and it never calls `execvp` with any other vector. -/
theorem execvp_argv_of_commandLine (fs : Files) (fuel : Nat) (sh : Shell) (cmd : CStr)
    (args : List CStr) (input output : Option CStr) (outFirst amp : Bool) (waited : Int × Nat)
    (hfuel : (commandLine cmd args input output outFirst amp).length < fuel)
    (hcmd : Plain cmd) (hargs : ∀ a ∈ args, Plain a)
    (hin : ∀ p, input = some p → Plain p) (hout : ∀ p, output = some p → Plain p) :
    ((∀ p, input = some p → fs.openRead p = true) →
      (∀ p, output = some p → fs.openWrite p = true) →
      spawn fs fuel sh (commandLine cmd args input output outFirst amp) 0 waited =
        Run.done (.execvp (cmd :: args)
          (fdOf input (if amp then Fd.devNull else Fd.terminal))
          (fdOf output (if amp then Fd.devNull else Fd.terminal)))) ∧
    (∀ argv si so,
      spawn fs fuel sh (commandLine cmd args input output outFirst amp) 0 waited =
        Run.done (.execvp argv si so) → argv = cmd :: args) := by
  have key := spawn_commandLine_scan fs fuel sh cmd args input output outFirst amp waited
    hfuel hcmd hargs hin hout
  have hargv : argvLoop (args.length + 1)
      (cutList (commandLine cmd args input output outFirst amp)
        (cutsBefore (commandLine cmd args input output outFirst amp)
          (commandLine cmd args input output outFirst amp).length)) (some 0) =
      Run.done (cmd :: args) := by
    have hlen : 0 + (args.length + 1) ≤
        (commandLine cmd args input output outFirst amp).length := by
      simp [commandLine]
    rw [argvLoop_cutList (commandLine cmd args input output outFirst amp)
      (cutsBefore (commandLine cmd args input output outFirst amp)
        (commandLine cmd args input output outFirst amp).length)
      (args.length + 1) 0 (some 0) (fun _ => rfl) hlen
      (fun a _ ha => cutsBefore_commandLine cmd args
        (redirections input output outFirst ++ ampWords amp) _ a hargs ha)]
    simp [commandLine]
  have hok : (∀ p, input = some p → fs.openRead p = true) →
      (∀ p, output = some p → fs.openWrite p = true) →
      spawn fs fuel sh (commandLine cmd args input output outFirst amp) 0 waited =
        Run.done (.execvp (cmd :: args)
          (fdOf input (if amp then Fd.devNull else Fd.terminal))
          (fdOf output (if amp then Fd.devNull else Fd.terminal))) := by
    intro hr hw
    rw [key, scan_tail_ok fs input output outFirst amp _ hin hout hr hw]
    simp only [Run.done_bind, add_sub_cancel_right]
    have h1 : ¬ ((args.length : Int) + 1 < 0) := by omega
    have h2 : ((args.length : Int) + 1).toNat = args.length + 1 := by omega
    rw [if_neg h1, h2, hargv]
    rfl
  refine ⟨hok, ?_⟩
  intro argv si so h
  by_cases hopen : (∀ p, input = some p → fs.openRead p = true) ∧
      (∀ p, output = some p → fs.openWrite p = true)
  · rw [hok hopen.1 hopen.2] at h
    injection h with h
    injection h with h
    exact h.symm
  · obtain ⟨t, ht⟩ := scan_tail_fail fs input output outFirst amp
      ((args.length : Int) + 1 + redirCount input output,
        if amp then Fd.devNull else Fd.terminal,
        if amp then Fd.devNull else Fd.terminal) hin hout hopen
    rw [key, ht] at h
    simp at h

/-! ## A redirection target that cannot be opened -/

theorem scan_reaches_failure (fs : Files) (d p : CStr) (post : List CStr)
    (hd : (d = ['>'] ∧ fs.openWrite p = false) ∨ (d = ['<'] ∧ fs.openRead p = false)) :
    ∀ (pre : List CStr) (atHead : Bool) (s : Int × Fd × Fd),
      (atHead = true → ∀ a, pre.head? = some a → a ≠ ['<'] ∧ a ≠ ['>']) →
      (∀ l1 q l2, pre ++ [d] = l1 ++ ['>'] :: q :: l2 → fs.openWrite q = true) →
      (∀ l1 q l2, pre ++ [d] = l1 ++ ['<'] :: q :: l2 → fs.openRead q = true) →
      scan fs (pre ++ d :: p :: post) atHead s =
        Run.exited 1 [.write (openDiagnostic d p)] := by
  intro pre
  induction pre with
  | nil =>
    intro atHead s _ _ _
    rcases hd with ⟨rfl, ho⟩ | ⟨rfl, ho⟩
    · simp [scan, scanOut, ho, openDiagnostic]
    · simp [scan, scanOut, scanIn, ho, openDiagnostic]
  | cons a pre ih =>
    intro atHead s hhead hw hr
    have hnext : ∃ q, (pre ++ d :: p :: post).head? = some q ∧
        ∃ l2, (a :: pre) ++ [d] = [] ++ a :: q :: l2 := by
      cases pre with
      | nil => exact ⟨d, rfl, [], rfl⟩
      | cons b pre => exact ⟨b, rfl, pre ++ [d], rfl⟩
    obtain ⟨q, hq, l2, hl2⟩ := hnext
    have hw' : ∀ l1 q l2, pre ++ [d] = l1 ++ ['>'] :: q :: l2 → fs.openWrite q = true :=
      fun l1 q l2 h => hw (a :: l1) q l2 (by simp [h])
    have hr' : ∀ l1 q l2, pre ++ [d] = l1 ++ ['<'] :: q :: l2 → fs.openRead q = true :=
      fun l1 q l2 h => hr (a :: l1) q l2 (by simp [h])
    have IH := fun s => ih false s (fun h => by simp at h) hw' hr'
    rw [List.cons_append, scan]
    by_cases hA : a = ['>']
    · subst hA
      have hopen : fs.openWrite q = true := hw [] q l2 hl2
      have hnh : atHead = false := by
        cases atHead with
        | false => rfl
        | true => exact absurd rfl (hhead rfl _ rfl).2
      simp only [scanOut, scanIn, hq, hopen, hnh, if_true, Bool.true_eq_false, if_false,
        Bool.false_eq_true, Run.done_bind]
      rw [if_neg (by decide)]
      simp only [Run.done_bind]
      exact IH _
    · by_cases hB : a = ['<']
      · subst hB
        have hopen : fs.openRead q = true := hr [] q l2 hl2
        have hnh : atHead = false := by
          cases atHead with
          | false => rfl
          | true => exact absurd rfl (hhead rfl _ rfl).1
        simp only [scanOut, scanIn, hq, hopen, hnh, if_true, Bool.true_eq_false, if_false,
          Bool.false_eq_true, Run.done_bind]
        rw [if_neg (by decide)]
        simp only [Run.done_bind, if_true]
        exact IH _
      · simp only [scanOut, scanIn, hA, hB, if_false, Run.done_bind]
        exact IH _

theorem scan_some_failure (fs : Files) (d p : CStr) (post : List CStr)
    (hd : (d = ['>'] ∧ fs.openWrite p = false) ∨ (d = ['<'] ∧ fs.openRead p = false)) :
    ∀ (pre : List CStr) (atHead : Bool) (s : Int × Fd × Fd),
      (atHead = true → ∀ a, pre.head? = some a → a ≠ ['<'] ∧ a ≠ ['>']) →
      ∃ d' q, scan fs (pre ++ d :: p :: post) atHead s =
        Run.exited 1 [.write (openDiagnostic d' q)] := by
  intro pre
  induction pre with
  | nil =>
    intro atHead s _
    exact ⟨d, p, scan_reaches_failure fs d p post hd [] atHead s (fun _ a h => by simp at h)
      (fun l1 q l2 h => by
        have := congrArg List.length h
        simp at this
        omega)
      (fun l1 q l2 h => by
        have := congrArg List.length h
        simp at this
        omega)⟩
  | cons a pre ih =>
    intro atHead s hhead
    have hnext : ∃ q, (pre ++ d :: p :: post).head? = some q := by
      cases pre with
      | nil => exact ⟨d, rfl⟩
      | cons b pre => exact ⟨b, rfl⟩
    obtain ⟨q, hq⟩ := hnext
    have IH := fun s => ih false s (fun h => by simp at h)
    rw [List.cons_append, scan]
    by_cases hA : a = ['>']
    · subst hA
      have hnh : atHead = false := by
        cases atHead with
        | false => rfl
        | true => exact absurd rfl (hhead rfl _ rfl).2
      by_cases hopen : fs.openWrite q = false
      · refine ⟨['>'], q, ?_⟩
        simp [scanOut, hq, hopen, openDiagnostic]
      · simp only [scanOut, scanIn, hq, hopen, hnh, if_true, if_false,
          Bool.false_eq_true, Run.done_bind]
        rw [if_neg (by decide)]
        simp only [Run.done_bind]
        exact IH _
    · by_cases hB : a = ['<']
      · subst hB
        have hnh : atHead = false := by
          cases atHead with
          | false => rfl
          | true => exact absurd rfl (hhead rfl _ rfl).1
        by_cases hopen : fs.openRead q = false
        · refine ⟨['<'], q, ?_⟩
          simp [scanOut, scanIn, hq, hopen, openDiagnostic]
        · simp only [scanOut, scanIn, hq, hopen, hnh, if_true, if_false,
            Bool.false_eq_true, Run.done_bind]
          rw [if_neg (by decide)]
          simp only [Run.done_bind, if_true]
          exact IH _
      · simp only [scanOut, scanIn, hA, hB, if_false, Run.done_bind]
        exact IH _

/-- Claim C7: in a command line `pre... d p post...` that does not begin with a redirection
word, where `d` is `<` or `>` and the open of `p` fails, the child exits with status 1 after
printing a cannot-open diagnostic and does not reach `execvp`; the diagnostic names `p`
whenever every redirection before `d` has opened its target, so that the open of `p` is the
one that fails. -/
theorem open_failure_exits (fs : Files) (fuel : Nat) (sh : Shell) (pre : List CStr)
    (d p : CStr) (post : List CStr) (waited : Int × Nat)
    (hfuel : (pre ++ d :: p :: post).length < fuel)
    (hhead : ∀ a, pre.head? = some a → a ≠ ['<'] ∧ a ≠ ['>'])
    (hd : (d = ['>'] ∧ fs.openWrite p = false) ∨ (d = ['<'] ∧ fs.openRead p = false)) :
    ((∀ l1 q l2, pre ++ [d] = l1 ++ ['>'] :: q :: l2 → fs.openWrite q = true) →
      (∀ l1 q l2, pre ++ [d] = l1 ++ ['<'] :: q :: l2 → fs.openRead q = true) →
      spawn fs fuel sh (pre ++ d :: p :: post) 0 waited =
        Run.exited 1 [.write (openDiagnostic d p)]) ∧
    (∃ d' q, spawn fs fuel sh (pre ++ d :: p :: post) 0 waited =
        Run.exited 1 [.write (openDiagnostic d' q)]) ∧
    (∀ argv si so, spawn fs fuel sh (pre ++ d :: p :: post) 0 waited ≠
        Run.done (.execvp argv si so)) := by
  have hspawn := spawn_child_eq fs fuel sh (pre ++ d :: p :: post) waited (by simp) hfuel
  obtain ⟨d', q, hsome⟩ := scan_some_failure fs d p post hd pre true
    (nArgsAfterAmp (pre ++ d :: p :: post), defaultFd (pre ++ d :: p :: post),
      defaultFd (pre ++ d :: p :: post)) (fun _ => hhead)
  have key : spawn fs fuel sh (pre ++ d :: p :: post) 0 waited =
      Run.exited 1 [.write (openDiagnostic d' q)] := by
    rw [hspawn, hsome]
    rfl
  refine ⟨?_, ⟨d', q, key⟩, ?_⟩
  · intro hw hr
    rw [hspawn, scan_reaches_failure fs d p post hd pre true _ (fun _ => hhead) hw hr]
    rfl
  · intro argv si so h
    rw [key] at h
    exact Run.noConfusion h

/-! ## Foreground and background in the parent -/

theorem spawn_parent_eq (fs : Files) (fuel : Nat) (sh : Shell) (words : List CStr)
    (spawnPid : Int) (waited : Int × Nat) (hne : words ≠ []) (hfuel : words.length < fuel)
    (hpid : 0 < spawnPid) :
    spawn fs fuel sh words spawnPid waited =
      Run.done (.prompt (parent
        (if endsWithAmp words = true ∧ sh.bgMode = ['0'] then
          { sh with jobs := sh.jobs ++ [spawnPid], trace := sh.trace ++ [.fork] }
        else { sh with trace := sh.trace ++ [.fork] })
        (endsWithAmp words) spawnPid waited)) := by
  have hpos : 0 < words.length := List.length_pos.mpr hne
  rw [spawn, checkBackground_linkedList words words.length 0 fuel _ (by omega) hpos hfuel]
  simp only [Run.done_bind]
  rw [if_neg (by omega), if_neg (by omega)]

/-- Claim C4: for an external command, with the foreground-only flag either "0" or "1", the
parent appends the child's pid to the job list and goes back to the prompt without a blocking
wait exactly when the last word is `&` and the flag is "0"; otherwise it adds no job and
waits for that child. -/
theorem background_iff_amp_and_mode (fs : Files) (fuel : Nat) (sh : Shell) (cmd : CStr)
    (rest : List CStr) (spawnPid : Int) (waited : Int × Nat)
    (hfuel : (cmd :: rest).length < fuel)
    (hext : cmd ≠ "cd".toList ∧ cmd ≠ "status".toList ∧ cmd ≠ "exit".toList)
    (hpid : 0 < spawnPid)
    (hmode : sh.bgMode = ['0'] ∨ sh.bgMode = ['1']) :
    ∃ sh', runCommand fs fuel sh (cmd :: rest) spawnPid waited = Run.done (.prompt sh') ∧
      (((cmd :: rest).getLast? = some ['&'] ∧ sh.bgMode = ['0']) →
        sh'.jobs = sh.jobs ++ [spawnPid] ∧
        sh'.trace = sh.trace ++ [.fork,
          .write ("background pid is ".toList ++ fmtInt spawnPid ++ ['\n'])]) ∧
      (¬ ((cmd :: rest).getLast? = some ['&'] ∧ sh.bgMode = ['0']) →
        sh'.jobs = sh.jobs ∧ sh'.trace = sh.trace ++ [.fork, .waitpid spawnPid]) := by
  have h01 : (['0'] : CStr) ≠ ['1'] := by decide
  rw [runCommand, if_neg hext.1, if_neg hext.2.1, if_neg hext.2.2,
    spawn_parent_eq fs fuel sh _ spawnPid waited (by simp) hfuel hpid]
  refine ⟨_, rfl, ?_, ?_⟩
  · rintro ⟨hlast, hm⟩
    have he : endsWithAmp (cmd :: rest) = true := by simp [endsWithAmp, hlast]
    have hm1 : sh.bgMode ≠ ['1'] := by rw [hm]; exact h01
    simp [parent, he, hm, h01]
  · intro hnot
    by_cases he : endsWithAmp (cmd :: rest) = true
    · have hlast : (cmd :: rest).getLast? = some ['&'] := by simpa [endsWithAmp] using he
      have hm0 : sh.bgMode ≠ ['0'] := fun h => hnot ⟨hlast, h⟩
      have hm1 : sh.bgMode = ['1'] := by
        rcases hmode with h | h
        · exact absurd h hm0
        · exact h
      by_cases hw : waited.1 = -1 <;> simp [parent, he, hm1, hw, Ne.symm h01]
    · have he' : endsWithAmp (cmd :: rest) = false := by simpa using he
      by_cases hw : waited.1 = -1 <;> simp [parent, he', hw]

/-! ## The polling pass -/

theorem fmtInt_natCast (n : Nat) : fmtInt (n : Int) = Nat.toDigits 10 n := by
  have h : ¬ ((n : Int) < 0) := by omega
  simp [fmtInt, h]

theorem completionReport_eq (pid : Int) (status : Nat) :
    completionReport pid status = expectedReport pid status := by
  unfold completionReport expectedReport reportHeader WIFEXITED WIFSIGNALED WTERMSIG
    WEXITSTATUS
  rw [fmtInt_natCast, fmtInt_natCast]
  by_cases h0 : status % 128 = 0
  · simp [h0]
  · have hpos : 0 < status % 128 := Nat.pos_of_ne_zero h0
    by_cases h1 : status % 128 < 127
    · simp [h0, h1, hpos]
    · simp [h0, h1]

theorem pollLoop_eq {K : Type} (waitpid : K → Int → Int × Nat × K) :
    ∀ (jobs : List Int) (k : K) (out : List Event),
      (pollLoop waitpid jobs k out).2 = out ++ reportsOf (pollResults waitpid jobs k) := by
  intro jobs
  induction jobs with
  | nil => intro k out; simp [pollLoop, pollResults, reportsOf]
  | cons pid next ih =>
    intro k out
    rw [pollLoop]
    by_cases hr : (waitpid k pid).1 > 0
    · simp only [hr, if_true]
      rw [ih, completionReport_eq]
      have hr' : 0 < (waitpid k pid).1 := hr
      simp [pollResults, reportsOf, List.filter, hr', List.append_assoc]
    · simp only [hr, if_false]
      rw [ih]
      have hr' : ¬ 0 < (waitpid k pid).1 := hr
      simp [pollResults, reportsOf, List.filter, hr']

theorem pollLoop_kernel {K : Type} (waitpid : K → Int → Int × Nat × K) :
    ∀ (jobs : List Int) (k : K) (out : List Event),
      (pollLoop waitpid jobs k out).1 = (pollLoop waitpid jobs k []).1 := by
  intro jobs
  induction jobs with
  | nil => intro k out; rfl
  | cons pid next ih =>
    intro k out
    rw [pollLoop, pollLoop]
    by_cases hr : (waitpid k pid).1 > 0
    · simp only [hr, if_true]
      rw [ih, ih _ ([] ++ _)]
    · simp only [hr, if_false]
      exact ih _ _

theorem pollLoop_kernel_cons {K : Type} (waitpid : K → Int → Int × Nat × K) (pid : Int)
    (next : List Int) (k : K) :
    (pollLoop waitpid (pid :: next) k []).1 =
      (pollLoop waitpid next (waitpid k pid).2.2 []).1 := by
  rw [pollLoop]
  by_cases hr : (waitpid k pid).1 > 0
  · simp only [hr, if_true]
    rw [pollLoop_kernel]
  · simp only [hr, if_false]

theorem pollResults_pids {K : Type} (waitpid : K → Int → Int × Nat × K) :
    ∀ (jobs : List Int) (k : K), (pollResults waitpid jobs k).map (fun c => c.1) = jobs := by
  intro jobs
  induction jobs with
  | nil => intro k; rfl
  | cons pid next ih => intro k; simp [pollResults, ih]

theorem reportHeader_mem_reportsOf (checks : List (Int × Int × Nat)) (c : Int × Int × Nat)
    (hc : c ∈ checks) (hpos : 0 < c.2.1) : reportHeader c.1 ∈ reportsOf checks := by
  unfold reportsOf
  rw [List.mem_flatten]
  refine ⟨expectedReport c.1 c.2.2, ?_, by simp [expectedReport]⟩
  rw [List.mem_map]
  exact ⟨c, List.mem_filter.mpr ⟨hc, by simpa using hpos⟩, rfl⟩

theorem waitpidNoHang_gone (k : ProcTable) (pid p : Int) (h : k pid = .gone) :
    (waitpidNoHang k p).2.2 pid = .gone := by
  unfold waitpidNoHang
  cases hp : k p with
  | running => simpa using h
  | gone => simpa using h
  | zombie status =>
    by_cases hpp : pid = p
    · simp [hpp]
    · simp [hpp, h]

theorem waitpidNoHang_of_gone (k : ProcTable) (pid : Int) (h : k pid = .gone) :
    (waitpidNoHang k pid).1 = -1 := by
  simp [waitpidNoHang, h]

theorem waitpidNoHang_pos (k : ProcTable) (pid : Int) (h : 0 < (waitpidNoHang k pid).1) :
    (waitpidNoHang k pid).2.2 pid = .gone := by
  unfold waitpidNoHang at h ⊢
  cases hp : k pid with
  | running => simp [hp] at h
  | gone => simp [hp] at h
  | zombie status => simp

theorem pollLoop_keeps_gone (pid : Int) :
    ∀ (jobs : List Int) (k : ProcTable), k pid = .gone →
      (∀ c ∈ pollResults waitpidNoHang jobs k, c.1 = pid → c.2.1 = -1) ∧
        (pollLoop waitpidNoHang jobs k []).1 pid = .gone := by
  intro jobs
  induction jobs with
  | nil =>
    intro k h
    exact ⟨fun c hc => by simp [pollResults] at hc, h⟩
  | cons p next ih =>
    intro k h
    obtain ⟨h1, h2⟩ := ih (waitpidNoHang k p).2.2 (waitpidNoHang_gone k pid p h)
    refine ⟨?_, ?_⟩
    · intro c hc hcp
      rw [pollResults, List.mem_cons] at hc
      rcases hc with rfl | hc
      · simp only at hcp
        subst hcp
        exact waitpidNoHang_of_gone k p h
      · exact h1 c hc hcp
    · rw [pollLoop_kernel_cons]
      exact h2

theorem pollLoop_reaps_reported :
    ∀ (jobs : List Int) (k : ProcTable), ∀ c ∈ pollResults waitpidNoHang jobs k,
      0 < c.2.1 → (pollLoop waitpidNoHang jobs k []).1 c.1 = .gone := by
  intro jobs
  induction jobs with
  | nil => intro k c hc; simp [pollResults] at hc
  | cons p next ih =>
    intro k c hc hpos
    rw [pollLoop_kernel_cons]
    rw [pollResults, List.mem_cons] at hc
    rcases hc with rfl | hc
    · exact (pollLoop_keeps_gone p next _ (waitpidNoHang_pos k p hpos)).2
    · exact ih _ c hc hpos

/-- Claim C6, amended: whatever the non-blocking checks answer, the polling pass checks every
recorded job once in recorded order and prints, in that order, one completion line (naming
the pid and the exit code or the signal number) for each check that returned a positive pid;
it leaves the job list as it was, so a reported job stays in the list; and with the kernel's
`waitpid`, a reported job has been reaped, and a reaped job gets -1 at every check and stays
reaped, so it is not reported again. -/
theorem pollJobs_reports_and_keeps {K : Type} (waitpid : K → Int → Int × Nat × K) (k : K)
    (sh : Shell) (kt : ProcTable) :
    (pollJobs waitpid k sh).2.jobs = sh.jobs ∧
      (pollJobs waitpid k sh).2.trace =
        sh.trace ++ reportsOf (pollResults waitpid sh.jobs k) ∧
      (pollResults waitpid sh.jobs k).map (fun c => c.1) = sh.jobs ∧
      (∀ c ∈ pollResults waitpid sh.jobs k, 0 < c.2.1 →
        reportHeader c.1 ∈ reportsOf (pollResults waitpid sh.jobs k)) ∧
      (∀ c ∈ pollResults waitpidNoHang sh.jobs kt, 0 < c.2.1 →
        (pollJobs waitpidNoHang kt sh).1 c.1 = .gone) ∧
      (∀ pid, kt pid = .gone →
        (∀ c ∈ pollResults waitpidNoHang sh.jobs kt, c.1 = pid → c.2.1 = -1) ∧
          (pollJobs waitpidNoHang kt sh).1 pid = .gone) := by
  have hk : ∀ kt' : ProcTable, (pollJobs waitpidNoHang kt' sh).1 =
      (pollLoop waitpidNoHang sh.jobs kt' []).1 := fun kt' => rfl
  refine ⟨rfl, ?_, pollResults_pids waitpid sh.jobs k,
    fun c hc hpos => reportHeader_mem_reportsOf _ c hc hpos, ?_, ?_⟩
  · have := pollLoop_eq waitpid sh.jobs k []
    simp only [List.nil_append] at this
    simp [pollJobs, this]
  · intro c hc hpos
    rw [hk]
    exact pollLoop_reaps_reported sh.jobs kt c hc hpos
  · intro pid hpid
    rw [hk]
    exact pollLoop_keeps_gone pid sh.jobs kt hpid

/-! ## Built-ins -/

theorem exitLoop_eq_map (jobs : List Int) :
    exitLoop jobs = jobs.map fun pid => Event.kill pid SIGKILL := by
  induction jobs with
  | nil => rfl
  | cons pid next ih => simp [exitLoop, ih]

theorem runCommand_exit (fs : Files) (fuel : Nat) (sh : Shell) (rest : List CStr)
    (spawnPid : Int) (waited : Int × Nat) :
    runCommand fs fuel sh ("exit".toList :: rest) spawnPid waited =
      Run.exited 0 (sh.trace ++ sh.jobs.map fun pid => Event.kill pid SIGKILL) := by
  rw [runCommand, if_neg (by decide), if_neg (by decide), if_pos rfl, exit__, exitLoop_eq_map]

/-- Claim C10: for every job list, `exit` sends SIGKILL to the pid of every recorded job,
each once and in recorded order, and then the interpreter exits with status 0 instead of
going back to the prompt. -/
theorem exit_kills_all_then_exits (fs : Files) (fuel : Nat) (sh : Shell) (rest : List CStr)
    (spawnPid : Int) (waited : Int × Nat) :
    runCommand fs fuel sh ("exit".toList :: rest) spawnPid waited =
        Run.exited 0 (sh.trace ++ sh.jobs.map fun pid => Event.kill pid SIGKILL) ∧
      SIGKILL = 9 :=
  ⟨runCommand_exit fs fuel sh rest spawnPid waited, rfl⟩

theorem cd_path_ignores_rest (fs : Files) (sh : Shell) (path : CStr) (more more' : List CStr) :
    cd__ fs sh ("cd".toList :: path :: more) = cd__ fs sh ("cd".toList :: path :: more') := by
  simp [cd__]

/-- Claim C9, amended: a line whose first word is `cd`, `status` or `exit` forks no process
and adds no job, and a trailing `&` changes nothing for `status` and `exit`, nor for `cd` when
an argument stands before the `&` (`cd path &` does what `cd path` does). -/
theorem builtin_no_spawn_ignores_amp (fs : Files) (fuel : Nat) (sh : Shell) (cmd : CStr)
    (rest : List CStr) (spawnPid : Int) (waited : Int × Nat)
    (hb : cmd = "cd".toList ∨ cmd = "status".toList ∨ cmd = "exit".toList) :
    ((∃ sh' evs, runCommand fs fuel sh (cmd :: rest) spawnPid waited = Run.done (.prompt sh') ∧
          sh'.jobs = sh.jobs ∧ sh'.trace = sh.trace ++ evs ∧ Event.fork ∉ evs) ∨
      (∃ evs, runCommand fs fuel sh (cmd :: rest) spawnPid waited =
          Run.exited 0 (sh.trace ++ evs) ∧ Event.fork ∉ evs)) ∧
    ((cmd ≠ "cd".toList ∨ rest ≠ []) →
      runCommand fs fuel sh (cmd :: (rest ++ [['&']])) spawnPid waited =
        runCommand fs fuel sh (cmd :: rest) spawnPid waited) := by
  refine ⟨?_, ?_⟩
  · rcases hb with rfl | rfl | rfl
    · left
      rw [runCommand, if_pos rfl]
      cases rest with
      | nil =>
        cases h : fs.chdir sh.cwd sh.home with
        | none =>
          simp only [cd__, h, Run.done_bind]
          exact ⟨_, _, rfl, rfl, rfl, by simp⟩
        | some dir =>
          simp only [cd__, h, Run.done_bind]
          exact ⟨_, _, rfl, rfl, rfl, by simp⟩
      | cons path more =>
        cases h : fs.chdir sh.cwd (some path) with
        | none =>
          simp only [cd__, h, Run.done_bind]
          exact ⟨_, _, rfl, rfl, rfl, by simp⟩
        | some dir =>
          simp only [cd__, h, Run.done_bind]
          exact ⟨_, _, rfl, rfl, rfl, by simp⟩
    · left
      rw [runCommand, if_neg (by decide), if_pos rfl]
      exact ⟨status__ sh, [.write sh.eStatus], rfl, rfl, rfl, by simp⟩
    · right
      rw [runCommand_exit]
      exact ⟨_, rfl, by simp⟩
  · intro h
    rcases hb with rfl | rfl | rfl
    · cases rest with
      | nil => simp at h
      | cons path more =>
        rw [runCommand, runCommand, if_pos rfl, if_pos rfl]
        exact congrArg (fun r => Run.bind r fun sh' => Run.done (Outcome.prompt sh'))
          (cd_path_ignores_rest fs sh path (more ++ [['&']]) more)
    · rw [runCommand, runCommand, if_neg (by decide), if_pos rfl, if_neg (by decide), if_pos rfl]
    · rw [runCommand_exit, runCommand_exit]

/-! ## The claims -/

theorem swapLoop_result_clean (sPID : CStr) :
    ∀ (fuel : Nat) (text r : CStr), swapLoop fuel sPID text = some r → strstr r delim = none := by
  intro fuel
  induction fuel with
  | zero => intro text r h; simp [swapLoop] at h
  | succ fuel ih =>
    intro text r h
    rw [swapLoop] at h
    cases hs : strstr text delim with
    | none =>
      rw [hs] at h
      injection h with h
      rw [← h]
      exact hs
    | some p =>
      rw [hs] at h
      exact ih _ r h

/-- Claim C1: for every token `t` and every pid text `p` of decimal digits, `swapDelimiter`
ends (any fuel above the length of `t` is enough) and returns `t` with every non-overlapping
occurrence of `$$`, scanned left to right, replaced by `p`; the result holds no `$$`; `$$`
gives `p` and `$$$$` gives `p` twice with nothing between. -/
theorem swapDelimiter_replaces_markers (p t : CStr) (hp : ∀ c ∈ p, c.isDigit = true) :
    (∀ fuel, t.length < fuel → swapDelimiter fuel p t = some (expandMarkers p t)) ∧
      ¬ delim <:+: expandMarkers p t ∧
      swapDelimiter 3 p ['$', '$'] = some p ∧
      swapDelimiter 5 p ['$', '$', '$', '$'] = some (p ++ p) := by
  have hd : '$' ∉ p := by
    intro h
    have := hp '$' h
    revert this
    decide
  have main : ∀ (s : CStr) (fuel : Nat), s.length < fuel →
      swapDelimiter fuel p s = some (expandMarkers p s) := by
    intro s fuel hf
    have := swapLoop_spec p hd s.length s [] le_rfl trivial fuel hf
    simpa [swapDelimiter] using this
  refine ⟨main t, ?_, ?_, ?_⟩
  · exact strstr_none_noInfix _
      (swapLoop_result_clean p (t.length + 1) t _ (main t (t.length + 1) (by omega)))
  · rw [main _ 3 (by decide)]
    simp [expandMarkers]
  · rw [main _ 5 (by decide)]
    simp [expandMarkers]

/-- The pid 4021 in the token `a$$$$b$`: two markers and a single `$` that stays. -/
theorem swapDelimiter_replaces_markers_witness :
    swapDelimiter 9 "4021".toList "a$$$$b$".toList = some "a40214021b$".toList :=
  (swapDelimiter_replaces_markers "4021".toList "a$$$$b$".toList (by decide)).1 9 (by decide)

/-- Claim C8, amended: for every line with at least one character other than the space,
`getArgs` splits the line on runs of the space character: its words are the maximal runs of
characters other than the space, in order, no word is empty or holds a space, and `nArgs` is
the number of words. -/
theorem getArgs_splits_on_spaces (line : CStr) (fuel : Nat) (hfuel : line.length < fuel)
    (h : ∃ c ∈ line, c ≠ ' ') :
    getArgs fuel line = Run.done ⟨spaceWords line, (spaceWords line).length⟩ ∧
      spaceWords line = (line.splitOn ' ').filter (fun w => w ≠ []) ∧
      ∀ w ∈ spaceWords line, w ≠ [] ∧ ' ' ∉ w :=
  ⟨getArgs_spaceWords line fuel hfuel h, rfl, spaceWords_mem line.length line le_rfl⟩

/-- The line ` ls  -l  a ` has the three words `ls`, `-l` and `a`. -/
theorem getArgs_splits_on_spaces_witness :
    getArgs 12 " ls  -l  a ".toList = Run.done ⟨["ls".toList, "-l".toList, ['a']], 3⟩ :=
  (getArgs_splits_on_spaces " ls  -l  a ".toList 12 (by decide) ⟨'l', by decide, by decide⟩).1

/-- Claim C8 as stated fails: a tab is whitespace, but `getArgs` keeps `a<TAB>b` as one word
where the runs of non-whitespace characters are `a` and `b`. -/
theorem getArgs_keeps_tab_in_word :
    getArgs 4 ['a', '\t', 'b'] = Run.done ⟨[['a', '\t', 'b']], 1⟩ ∧
      whitespaceWords ['a', '\t', 'b'] = [['a'], ['b']] ∧
      getArgs 4 ['a', '\t', 'b'] ≠
        Run.done ⟨whitespaceWords ['a', '\t', 'b'], (whitespaceWords ['a', '\t', 'b']).length⟩ := by
  decide

/-- Claim C2 (defect): a foreground child killed by signal 9 leaves the wait status 9; the
parent stores `exit value 0`, the exit-code text, and the signal number appears nowhere,
while the polling pass prints `terminated by signal 9` for the same status. -/
theorem foreground_signal_stored_as_exit_value :
    runCommand everyFileOpens 3 freshShell ["sleep".toList, "100".toList] 4242 (4242, 9) =
        Run.done (.prompt { freshShell with
          eStatus := "exit value 0\n".toList, trace := [.fork, .waitpid 4242] }) ∧
      WIFSIGNALED 9 = true ∧ WIFEXITED 9 = false ∧ WTERMSIG 9 = 9 ∧
      completionReport 4242 9 =
        [.write "background pid 4242 is done : ".toList,
          .write "terminated by signal 9\n".toList] := by
  decide

/-- Claim C3 as stated fails: `ls > <` has the form `command > output-path`, with command and
arguments other than `<` and `>`, and every open succeeds, but the child reads the path `<` as
a second directive, follows the NULL after it, and never calls `execvp`. -/
theorem execvp_not_reached_when_path_is_directive :
    commandLine ['l', 's'] [] none (some ['<']) false false = [['l', 's'], ['>'], ['<']] ∧
      spawn everyFileOpens 4 freshShell
        (commandLine ['l', 's'] [] none (some ['<']) false false) 0 (0, 0) = Run.segfault ∧
      ¬ ∃ argv si so, spawn everyFileOpens 4 freshShell
        (commandLine ['l', 's'] [] none (some ['<']) false false) 0 (0, 0) =
          Run.done (.execvp argv si so) := by
  have h : spawn everyFileOpens 4 freshShell
      (commandLine ['l', 's'] [] none (some ['<']) false false) 0 (0, 0) = Run.segfault := by
    decide
  refine ⟨by decide, h, ?_⟩
  rintro ⟨argv, si, so, h'⟩
  rw [h] at h'
  exact Run.noConfusion h'

/-- The line `ls -l > out < in &`: the child calls `execvp` with `ls -l`. -/
theorem execvp_argv_of_commandLine_witness :
    spawn everyFileOpens 8 freshShell
        [['l', 's'], ['-', 'l'], ['>'], ['o', 'u', 't'], ['<'], ['i', 'n'], ['&']] 0 (0, 0) =
      Run.done (.execvp [['l', 's'], ['-', 'l']] (.file ['i', 'n']) (.file ['o', 'u', 't'])) :=
  (execvp_argv_of_commandLine everyFileOpens 8 freshShell ['l', 's'] [['-', 'l']]
    (some ['i', 'n']) (some ['o', 'u', 't']) true true (0, 0) (by decide) (by decide)
    (by decide) (by intro p hp; cases hp; decide) (by intro p hp; cases hp; decide)).1
    (fun _ _ => rfl) (fun _ _ => rfl)

/-- The line `sleep 5 &` in a fresh session, with the child pid 4242. -/
theorem background_iff_amp_and_mode_witness :
    ∃ sh', runCommand everyFileOpens 4 freshShell ["sleep".toList, ['5'], ['&']] 4242 (0, 0) =
        Run.done (.prompt sh') ∧
      ((["sleep".toList, ['5'], ['&']].getLast? = some ['&'] ∧ freshShell.bgMode = ['0']) →
        sh'.jobs = freshShell.jobs ++ [4242] ∧
        sh'.trace = freshShell.trace ++ [.fork,
          .write ("background pid is ".toList ++ fmtInt 4242 ++ ['\n'])]) ∧
      (¬ ((["sleep".toList, ['5'], ['&']].getLast? = some ['&'] ∧ freshShell.bgMode = ['0'])) →
        sh'.jobs = freshShell.jobs ∧
        sh'.trace = freshShell.trace ++ [.fork, .waitpid 4242]) :=
  background_iff_amp_and_mode everyFileOpens 4 freshShell "sleep".toList [['5'], ['&']] 4242
    (0, 0) (by decide) (by decide) (by decide) (Or.inl rfl)

/-- Claim C5 (defect): in foreground-only mode (`bgMode` is "1") the parent waits for `ls &`
like for `ls`, but the child of `ls &` still has descriptors 0 and 1 on the null device,
where the child of `ls` keeps the terminal. -/
theorem foreground_only_amp_still_uses_null_device :
    runCommand everyFileOpens 3 { freshShell with bgMode := ['1'] }
        [['l', 's'], ['&']] 0 (0, 0) =
        Run.done (.execvp [['l', 's']] .devNull .devNull) ∧
      runCommand everyFileOpens 3 { freshShell with bgMode := ['1'] } [['l', 's']] 0 (0, 0) =
        Run.done (.execvp [['l', 's']] .terminal .terminal) ∧
      runCommand everyFileOpens 3 { freshShell with bgMode := ['1'] }
        [['l', 's'], ['&']] 77 (77, 0) =
        Run.done (.prompt { freshShell with
          bgMode := ['1'], eStatus := "exit value 0\n".toList,
          trace := [.fork, .waitpid 77] }) := by
  decide

/-- Claim C6 as stated fails: job 100 has ended with exit code 3 while job 200 still runs;
the pass reports job 100 and the kernel has reaped it, yet the job list afterwards still
holds both jobs and not only the job 200 that has not completed. -/
theorem reported_job_stays_tracked :
    (pollJobs waitpidNoHang oneEnded { freshShell with jobs := [100, 200] }).2 =
      { freshShell with
          jobs := [100, 200]
          trace := [.write "background pid 100 is done : ".toList,
            .write "exit value 3\n".toList] } ∧
    (pollJobs waitpidNoHang oneEnded { freshShell with jobs := [100, 200] }).1 100 = .gone ∧
    (pollJobs waitpidNoHang oneEnded { freshShell with jobs := [100, 200] }).2.jobs ≠ [200] := by
  decide

/-- Two passes over the jobs 100 (ended with exit code 3) and 200 (running): the first prints
the completion line of job 100, the second, on the kernel state the first left, nothing. -/
theorem pollJobs_reports_and_keeps_witness :
    (pollJobs waitpidNoHang oneEnded { freshShell with jobs := [100, 200] }).2.trace =
        [.write "background pid 100 is done : ".toList, .write "exit value 3\n".toList] ∧
      (pollJobs waitpidNoHang
        (pollJobs waitpidNoHang oneEnded { freshShell with jobs := [100, 200] }).1
        { freshShell with jobs := [100, 200] }).2.trace = [] :=
  ⟨(pollJobs_reports_and_keeps waitpidNoHang oneEnded
      { freshShell with jobs := [100, 200] } oneEnded).2.1,
    (pollJobs_reports_and_keeps waitpidNoHang
      (pollJobs waitpidNoHang oneEnded { freshShell with jobs := [100, 200] }).1
      { freshShell with jobs := [100, 200] } oneEnded).2.1⟩

/-- The line `nonexistent_cmd > /no/such/dir/out.txt` where the directory is missing. -/
theorem open_failure_exits_witness :
    spawn noSuchDir 4 freshShell
        ["nonexistent_cmd".toList, ['>'], "/no/such/dir/out.txt".toList] 0 (0, 0) =
      Run.exited 1 [.write "cannot open /no/such/dir/out.txt for output\n".toList] :=
  (open_failure_exits noSuchDir 4 freshShell ["nonexistent_cmd".toList] ['>']
    "/no/such/dir/out.txt".toList [] (0, 0) (by decide) (by decide) (Or.inl (by decide))).1
    (fun l1 q l2 h => by
      cases l1 with
      | nil =>
        simp only [List.cons_append, List.nil_append, List.cons.injEq] at h
        exact absurd h.1 (by decide)
      | cons b l1 =>
        have := congrArg List.length h
        simp at this
        omega)
    (fun l1 q l2 h => by
      cases l1 with
      | nil =>
        simp only [List.cons_append, List.nil_append, List.cons.injEq] at h
        exact absurd h.1 (by decide)
      | cons b l1 =>
        have := congrArg List.length h
        simp at this
        omega)

/-- Claim C9 as stated fails: `cd` goes to the home directory, but `cd &` calls `chdir("&")`,
which fails here, and leaves the working directory where it was. -/
theorem cd_amp_is_not_cd_home :
    runCommand everyFileOpens 3 freshShell [['c', 'd'], ['&']] 0 (0, 0) =
        Run.done (.prompt { freshShell with
          trace := [.chdir (some ['&']), .perror []] }) ∧
      runCommand everyFileOpens 3 freshShell [['c', 'd']] 0 (0, 0) =
        Run.done (.prompt { freshShell with
          cwd := "/home/user".toList, trace := [.chdir (some "/home/user".toList)] }) ∧
      runCommand everyFileOpens 3 freshShell [['c', 'd'], ['&']] 0 (0, 0) ≠
        runCommand everyFileOpens 3 freshShell [['c', 'd']] 0 (0, 0) := by
  decide

/-- The line `cd /home/user &` does what `cd /home/user` does. -/
theorem builtin_no_spawn_ignores_amp_witness :
    runCommand everyFileOpens 3 freshShell
        (['c', 'd'] :: (["/home/user".toList] ++ [['&']])) 0 (0, 0) =
      runCommand everyFileOpens 3 freshShell (['c', 'd'] :: ["/home/user".toList]) 0 (0, 0) :=
  (builtin_no_spawn_ignores_amp everyFileOpens 3 freshShell ['c', 'd']
    ["/home/user".toList] 0 (0, 0) (Or.inl rfl)).2 (Or.inr (by decide))

end SmallSh
